import Mathlib

/-!
Verification of the Cell (Varying) propagation engine described in the
documentation of this repository (`docs/theory/varying.md`).  The engine
itself (the `Varying` class of the janus library) ships as an external
dependency and is not part of this repository's sources, so the model below
is built from the specification's own propagation protocol: a cell holds a
value, a generation counter and an ordered observer list; `set` is gated by
strict equality and broadcasts over a snapshot of the observer list,
re-checking the generation before each delivery; derived (mapped/flattened)
cells subscribe lazily; `refCount` mirrors the observer count as a cell;
`managed` binds resource lifecycles to activation transitions.

The interpreter is a fuel-driven small-step machine over an explicit action
stack: a callback that re-entrantly calls `set` has its whole nested
broadcast run before the outer broadcast loop resumes, exactly mirroring
synchronous call-stack recursion.
-/

namespace Janus

/-- Modelled from the spec: the JS values the documented examples use.
Numbers are rationals (the docs use `3.5`), strings are strings, `ref c`
is a reference to the Varying/cell with id `c` (so `=` on `ref`s is
reference identity, as required of the `===` gate), `unit` stands for
JS `undefined`. -/
inductive Value where
  | num : Rat → Value
  | str : String → Value
  | ref : Nat → Value
  | unit : Value
deriving DecidableEq, Repr

/-- Modelled from the spec: JS `Math.round` on a rational (half rounds up):
`⌊q + 1/2⌋`, computed as `⌊(2·num + den) / (2·den)⌋`. -/
def roundJS (q : Rat) : Rat :=
  mkRat (mkRat (2 * q.num + (q.den : Int)) (2 * q.den)).floor 1

/-- An integer as a (already normalized) rational: used for observer
counts. -/
def intRat (n : Int) : Rat := ⟨n, 1, Nat.one_ne_zero, Nat.coprime_one_right _⟩

/-- Modelled from the spec: `Math.round` lifted to values (non-numbers pass through). -/
def roundV : Value → Value
  | .num q => .num (roundJS q)
  | v => v

/-- Modelled from the spec: the user callbacks appearing in the documented
scenarios. `push` records the value, `noop` ignores it, `setRound t` is the
re-entrant coercion callback `x => t.set(round(x))`, `primeIfPos t pv` is
the refCount priming callback `count => { if (count > 0) t.set(pv) }`. -/
inductive UserFn where
  | push
  | noop
  | setRound (t : Nat)
  | primeIfPos (t : Nat) (pv : Value)
deriving DecidableEq, Repr

/-- Modelled from the spec: an observer callback. `user` callbacks come from
scenario code; `fwd d` is the internal callback a derived cell `d` registers
on its source on activation (map, retarget); `ifwd d` is the internal
callback a flattening cell `d` registers on its currently tracked inner
cell (forwards the inner value through `set` on `d`). -/
inductive Cb where
  | user (u : UserFn)
  | fwd (d : Nat)
  | ifwd (d : Nat)
deriving DecidableEq, Repr

/-- Modelled from the spec: an entry of a cell's ordered observer list:
the Observation id and the callback. Registration order is list order. -/
structure Obs where
  oid : Nat
  cb : Cb
deriving DecidableEq, Repr

/-- Modelled from the spec: the pure mapping functions used by derived
cells in the documented scenarios. `idFn` is the identity (used by
`flatten`), `mulC k` multiplies a number, `chooseRef s c1 c2` is the
retargeting function `w => (w === s) ? c1 : c2` returning cell references. -/
inductive Fn where
  | idFn
  | mulC (k : Rat)
  | chooseRef (s : String) (c1 c2 : Nat)
deriving DecidableEq, Repr

/-- Modelled from the spec: application of a mapping function to a value. -/
def applyFn : Fn → Value → Value
  | .idFn, v => v
  | .mulC k, .num q => .num (mkRat (k.num * q.num) (k.den * q.den))
  | .mulC _, v => v
  | .chooseRef s c1 c2, v => if v = .str s then .ref c1 else .ref c2

/-- Modelled from the spec: a cell's kind. `source` is a root mutable cell;
`derived src fn flat` is a mapped cell over `src` (with `flat = true` it
additionally flattens a cell-valued result); `managed n u` holds `n`
resource factories and a compute function returning a fresh cell holding
`u` (the docs' `Varying.of(expensive.result())`). -/
inductive Kind where
  | source
  | derived (src : Nat) (fn : Fn) (flat : Bool)
  | managed (nRes : Nat) (u : Value)
deriving DecidableEq, Repr

/-- Modelled from the spec: one cell. `value`/`gen` are the current value
and the generation counter, `obs` the registration-ordered observer list,
`rc` the id of the materialized refCount cell (if any), `srcSub`/`innerSub`
the (cell, Observation id) of the internal upstream subscriptions a derived
or managed cell owns while `active`. -/
structure Cell where
  value : Value
  gen : Nat
  obs : List Obs
  kind : Kind
  rc : Option Nat := none
  srcSub : Option (Nat × Nat) := none
  innerSub : Option (Nat × Nat) := none
  active : Bool := false
deriving DecidableEq, Repr

/-- Modelled from the spec: the events the instrumented engine records.
`deliver c oid g idx v`: during the broadcast of generation `g` on cell
`c`, the observer with Observation id `oid`, sitting at position `idx` of
the broadcast's registration-ordered snapshot, was handed value `v`.
`icall oid v`: the immediate direct call of a fresh subscription.
`mapRun d`: the mapping function of derived cell `d` was executed.
`create d i` / `destroy d i`: managed cell `d` ran its `i`-th resource
factory / the release capability of its `i`-th resource. -/
inductive Ev where
  | deliver (c oid g idx : Nat) (v : Value)
  | icall (oid : Nat) (v : Value)
  | mapRun (d : Nat)
  | create (d i : Nat)
  | destroy (d i : Nat)
deriving DecidableEq, Repr

/-- Modelled from the spec: the whole program state: the cells (ids are
list indices), the scenario's `results` array, the next fresh Observation
id, and the recorded event trace. -/
structure W where
  cells : List Cell
  results : List Value
  nextObsId : Nat
  trace : List Ev
deriving DecidableEq, Repr

/-- Look a cell up by id. -/
def W.cell (w : W) (c : Nat) : Option Cell := w.cells.get? c

/-- Replace cell `c` by `f` applied to it (no-op when out of range). -/
def W.updateCell (w : W) (c : Nat) (f : Cell → Cell) : W :=
  match w.cells.get? c with
  | some cl => { w with cells := w.cells.set c (f cl) }
  | none => w

/-- The current value of cell `c` (`unit` when out of range). -/
def valOf (w : W) (c : Nat) : Value :=
  match w.cell c with
  | some cl => cl.value
  | none => .unit

/-- The current generation of cell `c` (`0` when out of range). -/
def genOf (w : W) (c : Nat) : Nat :=
  match w.cell c with
  | some cl => cl.gen
  | none => 0

/-- Modelled from the spec: how an internal subscription is recorded on its
owner: `free` (external Observation, held by scenario code), `inner d`
(tracked inner cell of flattening cell `d`), `srcOf d` (source subscription
of derived cell `d`). -/
inductive Reg where
  | free
  | inner (d : Nat)
  | srcOf (d : Nat)
deriving DecidableEq, Repr

/-- Modelled from the spec: the pending actions of the propagation machine.
`set c v` is a `set` call; `bloop c g idx snap` is the in-flight broadcast
loop of generation `g` on cell `c`, about to hand position `idx`, with
`snap` the rest of the snapshot; `runCb cb v` runs a callback; `sub` is
`subscribe`/`react`; `icall c oid cb` is the immediate direct call of a
fresh subscription; `append c oid cb` appends the new observer; `stopOb c
oid` is `Observation.stop()`; `destroyRes d` releases the resources of
managed cell `d`. -/
inductive Act where
  | set (c : Nat) (v : Value)
  | bloop (c g idx : Nat) (snap : List Obs)
  | runCb (cb : Cb) (v : Value)
  | sub (c : Nat) (imm : Bool) (cb : Cb) (reg : Reg)
  | icall (c oid : Nat) (cb : Cb)
  | append (c oid : Nat) (cb : Cb)
  | stopOb (c oid : Nat)
  | destroyRes (d : Nat)
deriving DecidableEq, Repr

/-- Modelled from the spec: run one user callback on a value: `push`
records, `setRound` re-entrantly sets the rounded value, `primeIfPos`
sets `pv` when handed a positive count. -/
def userRun (w : W) (u : UserFn) (v : Value) : W × List Act :=
  match u with
  | .push => ({ w with results := w.results ++ [v] }, [])
  | .noop => (w, [])
  | .setRound t => (w, [.set t (roundV v)])
  | .primeIfPos t pv =>
    match v with
    | .num q => if 0 < q.num then (w, [.set t pv]) else (w, [])
    | _ => (w, [])

/-- Modelled from the spec: the internal source callback of derived cell
`d`: apply the mapping function to the new source value; if flattening and
the result is a cell, unsubscribe from any previously tracked inner cell
and subscribe to the new one (which forwards its value through `set` on
`d`); otherwise forward the mapped value directly through `set` on `d`. -/
def fwdRun (w : W) (d : Nat) (v : Value) : W × List Act :=
  match w.cell d with
  | none => (w, [])
  | some cl =>
    match cl.kind with
    | .derived _ fn flat =>
      let w1 := { w with trace := w.trace ++ [.mapRun d] }
      let mv := applyFn fn v
      if flat then
        match mv with
        | .ref i =>
          let stopActs : List Act :=
            match cl.innerSub with
            | some (ci, oi) => [.stopOb ci oi]
            | none => []
          (w1, stopActs ++ [.sub i true (.ifwd d) (.inner d)])
        | _ => (w1, [.set d mv])
      else (w1, [.set d mv])
    | _ => (w, [])

/-- Modelled from the spec: dispatch a callback. -/
def cbRun (w : W) (cb : Cb) (v : Value) : W × List Act :=
  match cb with
  | .user u => userRun w u v
  | .fwd d => fwdRun w d v
  | .ifwd d => (w, [.set d v])

/-- Modelled from the spec: `set(v)`: a strict-equality (`===`) no-op gate;
otherwise assign the value, increment the generation and start a broadcast
over a snapshot of the current observer list in registration order. -/
def setStep (w : W) (c : Nat) (v : Value) : W × List Act :=
  match w.cell c with
  | none => (w, [])
  | some cl =>
    if v = cl.value then (w, [])
    else
      let g := cl.gen + 1
      let w1 := w.updateCell c (fun x => { x with value := v, gen := g })
      (w1, [.bloop c g 0 cl.obs])

/-- Modelled from the spec: one turn of the broadcast loop: before each
delivery re-check that the cell's generation still equals the broadcast's
generation and abort the whole loop otherwise; skip (without aborting)
snapshot entries that have been stopped; otherwise hand the value to the
observer and run its callback to completion before resuming the loop. -/
def bloopStep (w : W) (c g idx : Nat) (snap : List Obs) : W × List Act :=
  match snap with
  | [] => (w, [])
  | o :: rest =>
    match w.cell c with
    | none => (w, [])
    | some cl =>
      if cl.gen = g then
        if o ∈ cl.obs then
          let v := cl.value
          let w1 := { w with trace := w.trace ++ [.deliver c o.oid g idx v] }
          (w1, [.runCb o.cb v, .bloop c g (idx + 1) rest])
        else (w, [.bloop c g (idx + 1) rest])
      else (w, [])

/-- Modelled from the spec: the fresh Observation id, the state after the
bookkeeping part of `subscribe` (id allocation, recording of internal
ownership, lazy activation of a derived/managed cell gaining its first
observer), and the actions that run before the immediate call: activation's
internal subscription and the refCount update broadcast. -/
def subCore (w : W) (c : Nat) (reg : Reg) : Nat × W × List Act :=
  match w.cell c with
  | none => (w.nextObsId, w, [])
  | some cl =>
    let oid := w.nextObsId
    let w1 : W := { w with nextObsId := oid + 1 }
    let w2 :=
      match reg with
      | .free => w1
      | .inner d => w1.updateCell d (fun x => { x with innerSub := some (c, oid) })
      | .srcOf d => w1.updateCell d (fun x => { x with srcSub := some (c, oid) })
    let actP : W × List Act :=
      match cl.kind with
      | .source => (w2, [])
      | .derived s _ _ =>
        if cl.active then (w2, [])
        else (w2.updateCell c (fun x => { x with active := true }),
              [.sub s true (.fwd c) (.srcOf c)])
      | .managed n u =>
        if cl.active then (w2, [])
        else
          let innerId := w2.cells.length
          let w3 : W := { w2 with
            cells := w2.cells ++ [{ value := u, gen := 0, obs := [], kind := .source }] }
          let w4 := w3.updateCell c (fun x => { x with active := true })
          let w5 : W := { w4 with
            trace := w4.trace ++ (List.range n).map (fun i => Ev.create c i) }
          (w5, [.sub innerId true (.ifwd c) (.inner c)])
    let rcActs : List Act :=
      match cl.rc with
      | some r => [.set r (.num (intRat (cl.obs.length + 1 : Nat)))]
      | none => []
    (oid, actP.1, actP.2 ++ rcActs)

/-- Modelled from the spec: `subscribe(immediate, cb)`: allocate the
Observation (which is when the refCount increments), lazily activate,
broadcast the refCount change, then (if `immediate`) invoke the callback
directly with the then-current value, and only then append the observer to
the list — so the new observer is excluded from any in-flight snapshot and
the refCount's own broadcast settles before the immediate call. -/
def subStep (w : W) (c : Nat) (imm : Bool) (cb : Cb) (reg : Reg) : W × List Act :=
  match w.cell c with
  | none => (w, [])
  | some _ =>
    let core := subCore w c reg
    let oid := core.1
    let immActs : List Act := if imm then [.icall c oid cb] else []
    (core.2.1, core.2.2 ++ immActs ++ [.append c oid cb])

/-- Modelled from the spec: the immediate direct call of a fresh
subscription: read the cell's current value, record the call, run the
callback. It is a direct call, not a generation-stamped broadcast. -/
def icallStep (w : W) (c oid : Nat) (cb : Cb) : W × List Act :=
  match w.cell c with
  | none => (w, [])
  | some cl =>
    ({ w with trace := w.trace ++ [.icall oid cl.value] }, [.runCb cb cl.value])

/-- Modelled from the spec: append the new observer at the end of the
observer list, establishing last-registration order. -/
def appendStep (w : W) (c oid : Nat) (cb : Cb) : W × List Act :=
  (w.updateCell c (fun x => { x with obs := x.obs ++ [⟨oid, cb⟩] }), [])

/-- Modelled from the spec: `Observation.stop()`: idempotent removal from
the owning cell's observer list, a refCount decrement broadcast, and — when
the last observer leaves a derived or managed cell — deactivation: the cell
releases its source and inner subscriptions (and a managed cell then
releases its resources). -/
def stopStep (w : W) (c oid : Nat) : W × List Act :=
  match w.cell c with
  | none => (w, [])
  | some cl =>
    if cl.obs.any (fun o => o.oid == oid) then
      let newObs := cl.obs.filter (fun o => o.oid != oid)
      let w1 := w.updateCell c (fun x => { x with obs := newObs })
      let rcActs : List Act :=
        match cl.rc with
        | some r => [.set r (.num (intRat (newObs.length : Nat)))]
        | none => []
      let deact : W × List Act :=
        if newObs.isEmpty && cl.active then
          match cl.kind with
          | .derived _ _ _ =>
            let acts : List Act :=
              (match cl.srcSub with
               | some (cs, os) => [.stopOb cs os]
               | none => []) ++
              (match cl.innerSub with
               | some (ci, oi) => [.stopOb ci oi]
               | none => [])
            (w1.updateCell c
              (fun x => { x with active := false, srcSub := none, innerSub := none }), acts)
          | .managed _ _ =>
            let acts : List Act :=
              (match cl.innerSub with
               | some (ci, oi) => [.stopOb ci oi]
               | none => []) ++ [.destroyRes c]
            (w1.updateCell c (fun x => { x with active := false, innerSub := none }), acts)
          | .source => (w1, [])
        else (w1, [])
      (deact.1, rcActs ++ deact.2)
    else (w, [])

/-- Modelled from the spec: release the resources of managed cell `d`, in
the declared (creation) order. -/
def destroyStep (w : W) (d : Nat) : W × List Act :=
  match w.cell d with
  | none => (w, [])
  | some cl =>
    match cl.kind with
    | .managed n _ =>
      ({ w with trace := w.trace ++ (List.range n).map (fun i => Ev.destroy d i) }, [])
    | _ => (w, [])

/-- Modelled from the spec: one small step of the propagation machine. -/
def step (w : W) : Act → W × List Act
  | .set c v => setStep w c v
  | .bloop c g idx snap => bloopStep w c g idx snap
  | .runCb cb v => cbRun w cb v
  | .sub c imm cb reg => subStep w c imm cb reg
  | .icall c oid cb => icallStep w c oid cb
  | .append c oid cb => appendStep w c oid cb
  | .stopOb c oid => stopStep w c oid
  | .destroyRes d => destroyStep w d

/-- Modelled from the spec: run the machine to completion on an action
stack, with fuel. An action's own continuation actions are pushed in front of the
rest of the stack, so a nested re-entrant `set` runs to completion before
the outer broadcast loop resumes, exactly like synchronous call-stack
recursion. The returned fuel is positive iff the stack was fully consumed. -/
def run : Nat → W → List Act → W × Nat
  | 0, w, _ => (w, 0)
  | f + 1, w, [] => (w, f + 1)
  | f + 1, w, a :: rest =>
    let s := step w a
    run f s.1 (s.2 ++ rest)

/-- Modelled from the spec: `get()`: a synchronous, non-subscribing read.
A source cell or an active derived/managed cell returns its stored value;
an inert derived cell one-shot evaluates: recursively `get` the source,
apply the mapping function, and — when flattening and the result is a
cell — recursively `get` that inner cell (one layer only). An inert
managed cell's compute result holds `u`. -/
def getV : Nat → W → Nat → Value
  | 0, _, _ => .unit
  | f + 1, w, c =>
    match w.cell c with
    | none => .unit
    | some cl =>
      match cl.kind with
      | .source => cl.value
      | .derived s fn flat =>
        if cl.active then cl.value
        else
          let mv := applyFn fn (getV f w s)
          if flat then
            match mv with
            | .ref i => getV f w i
            | _ => mv
          else mv
      | .managed _ u => if cl.active then cl.value else u

/-! ### Trace projections -/

/-- The mapping-function executions recorded in a trace. -/
def mapRuns (tr : List Ev) : List Nat :=
  tr.filterMap fun e => match e with | .mapRun d => some d | _ => none

/-- The resource creation/release events recorded in a trace. -/
def resEvents (tr : List Ev) : List Ev :=
  tr.filterMap fun e =>
    match e with
    | .create d i => some (.create d i)
    | .destroy d i => some (.destroy d i)
    | _ => none

/-- The value an event hands to Observation `oid`, if any: a broadcast
delivery or an immediate direct call. -/
def callKey (oid : Nat) : Ev → Option Value
  | .icall o v => if o = oid then some v else none
  | .deliver _ o _ _ v => if o = oid then some v else none
  | _ => none

/-- The values handed to Observation `oid` (broadcast deliveries and
immediate direct calls), in order. -/
def callsTo (oid : Nat) (tr : List Ev) : List Value := tr.filterMap (callKey oid)

/-- The (generation, snapshot position) stamp of a delivery on cell `c`. -/
def delKey (c : Nat) : Ev → Option (Nat × Nat)
  | .deliver c' _ g idx _ => if c' = c then some (g, idx) else none
  | _ => none

/-- The (generation, snapshot position) stamps of the deliveries on cell
`c`, in trace order. -/
def perCell (c : Nat) (tr : List Ev) : List (Nat × Nat) := tr.filterMap (delKey c)

/-- Lexicographic order on (generation, snapshot position): a later
delivery on the same cell either carries a strictly newer generation, or
belongs to the same broadcast and goes to a strictly later position of the
registration-ordered snapshot. -/
def lexLt (a b : Nat × Nat) : Prop := a.1 < b.1 ∨ (a.1 = b.1 ∧ a.2 < b.2)

/-- The ordering contract of broadcasts: on every cell, consecutive
deliveries never go back to an older generation, and deliveries of one
broadcast (equal generation) walk the registration-ordered snapshot in
strictly increasing position order. -/
def traceOrdered (tr : List Ev) : Prop := ∀ c, List.Chain' lexLt (perCell c tr)

/-- The (cell, generation, next position) key of a pending broadcast-loop
action. -/
def bloopKey : Act → Option (Nat × Nat × Nat)
  | .bloop c g idx _ => some (c, g, idx)
  | _ => none

/-- The keys of the pending broadcast loops of an action stack. -/
def pend (acts : List Act) : List (Nat × Nat × Nat) := acts.filterMap bloopKey

/-- The invariant of the propagation machine that yields the ordering
contract: every recorded delivery is bounded by its cell's current
generation, the per-cell delivery stamps are lexicographically ordered,
every pending broadcast loop of generation `g` on cell `c` satisfies
`g ≤` the current generation and — when it is still current — all its
already-recorded deliveries sit strictly before its next position, and no
two pending loops on one cell share a generation. -/
structure Inv (w : W) (acts : List Act) : Prop where
  bound : ∀ c, ∀ e ∈ perCell c w.trace, e.1 ≤ genOf w c
  chain : ∀ c, List.Chain' lexLt (perCell c w.trace)
  bkey : ∀ b ∈ pend acts, b.2.1 ≤ genOf w b.1 ∧
    (b.2.1 = genOf w b.1 → ∀ e ∈ perCell b.1 w.trace, e.1 = b.2.1 → e.2 < b.2.2)
  bdis : List.Pairwise (fun b1 b2 : Nat × Nat × Nat => b1.1 = b2.1 → b1.2.1 ≠ b2.2.1)
    (pend acts)

/-! ### Freshness of a new Observation id -/

/-- Observation id `oid` is registered on no cell. -/
def unregistered (w : W) (oid : Nat) : Prop :=
  ∀ cl ∈ w.cells, ∀ o ∈ cl.obs, o.oid ≠ oid

/-- An internal-subscription record avoids Observation id `oid`. -/
def subAvoid (oid : Nat) : Option (Nat × Nat) → Bool
  | some p => p.2 != oid
  | none => true

/-- No cell's internal source/inner subscription records Observation id
`oid`. -/
def unstored (w : W) (oid : Nat) : Prop :=
  ∀ cl ∈ w.cells, subAvoid oid cl.srcSub = true ∧ subAvoid oid cl.innerSub = true

/-- `oid` is fresh for the state: below the allocation counter, registered
nowhere, recorded in no internal subscription. -/
def freshOid (w : W) (oid : Nat) : Prop :=
  oid < w.nextObsId ∧ unregistered w oid ∧ unstored w oid

/-- The Observation ids an action can touch directly. -/
def actOids : Act → List Nat
  | .bloop _ _ _ snap => snap.map (·.oid)
  | .icall _ oid _ => [oid]
  | .append _ oid _ => [oid]
  | .stopOb _ oid => [oid]
  | _ => []

/-- No pending action touches Observation id `oid`. -/
def avoidOid (oid : Nat) (acts : List Act) : Prop := ∀ a ∈ acts, oid ∉ actOids a

/-- Action stacks consisting only of `set` calls and empty broadcast
loops; running them can execute no callback at all. -/
def lazyActs (acts : List Act) : Prop :=
  ∀ a ∈ acts, (∃ c v, a = .set c v) ∨ (∃ c g i, a = .bloop c g i [])

/-- The state reached just before the immediate direct call of
`subscribe(true, cb)` on cell `c`: the bookkeeping part of `subscribe`
followed by its preamble actions (lazy activation, refCount broadcast),
run with fuel `f`. -/
def subMid (f : Nat) (w : W) (c : Nat) : W :=
  (run f (subCore w c .free).2.1 (subCore w c .free).2.2).1

/-! ### The documented scenarios -/

/-- Modelled from the spec: the re-entrant coercion scenario of the docs:
a cell holding `2` whose first subscriber re-entrantly sets the rounded
value and whose second subscriber records what it is handed. -/
def reentrantWorld : W :=
  { cells := [{ value := .num 2, gen := 0,
                obs := [⟨0, .user (.setRound 0)⟩, ⟨1, .user .push⟩],
                kind := .source }],
    results := [], nextObsId := 2, trace := [] }

/-- Modelled from the spec: the flatMap retargeting scenario:
`odds = Cell(1)` (cell 0), `evens = Cell(2)` (cell 1),
`choose = Cell('odds')` (cell 2) and
`derived = choose.flatMap(w => w === 'odds' ? odds : evens)` (cell 3). -/
def retargetWorld : W :=
  { cells := [ { value := .num 1, gen := 0, obs := [], kind := .source },
               { value := .num 2, gen := 0, obs := [], kind := .source },
               { value := .str "odds", gen := 0, obs := [], kind := .source },
               { value := .unit, gen := 0, obs := [],
                 kind := .derived 2 (.chooseRef "odds" 0 1) true } ],
    results := [], nextObsId := 0, trace := [] }

/-- Modelled from the spec: the retargeting script: an immediate recording
subscription on the derived cell, then
`choose.set('evens'); evens.set(4); odds.set(3); choose.set('odds')`. -/
def retargetScript : List Act :=
  [ .sub 3 true (.user .push) .free,
    .set 2 (.str "evens"), .set 1 (.num 4), .set 0 (.num 3), .set 2 (.str "odds") ]

/-- Modelled from the spec: the refCount priming scenario: `v = Cell(0)`
(cell 0) with its materialized refCount cell (cell 1). -/
def primingWorld : W :=
  { cells := [ { value := .num 0, gen := 0, obs := [], kind := .source, rc := some 1 },
               { value := .num 0, gen := 0, obs := [], kind := .source } ],
    results := [], nextObsId := 0, trace := [] }

/-- Modelled from the spec: the priming script:
`v.refCount().react(count => { if (count > 0) v.set(42) }); v.react(x => results.push(x))`. -/
def primingScript : List Act :=
  [ .sub 1 true (.user (.primeIfPos 0 (.num 42))) .free,
    .sub 0 true (.user .push) .free ]

/-- Modelled from the spec: the refCount counting scenario: a cell holding
`x` (cell 0) with its materialized refCount cell (cell 1). -/
def countingWorld (x : Value) : W :=
  { cells := [ { value := x, gen := 0, obs := [], kind := .source, rc := some 1 },
               { value := .num 0, gen := 0, obs := [], kind := .source } ],
    results := [], nextObsId := 0, trace := [] }

/-- Modelled from the spec: the counting script: record the refCount, then
create two observations on the cell and stop them both in order. -/
def countingScript : List Act :=
  [ .sub 1 true (.user .push) .free,
    .sub 0 true (.user .noop) .free,
    .sub 0 true (.user .noop) .free,
    .stopOb 0 1, .stopOb 0 2 ]

/-- Modelled from the spec: a managed cell (cell 0) with `n` resource
factories whose compute function returns `Varying.of(42)`. -/
def managedWorld (n : Nat) : W :=
  { cells := [ { value := .unit, gen := 0, obs := [], kind := .managed n (.num 42) } ],
    results := [], nextObsId := 0, trace := [] }

/-- Modelled from the spec: the managed lifecycle script: observe, stop,
re-observe, stop again. -/
def managedScript : List Act :=
  [ .sub 0 true (.user .push) .free, .stopOb 0 0,
    .sub 0 true (.user .push) .free, .stopOb 0 2 ]

/-- Modelled from the spec: a doubly nested cell graph
`Cell[Cell[Cell[x]]]`: cell 0 holds `x`, cell 1 holds cell 0, cell 2 holds
cell 1; cell 3 is `flatten` applied once to cell 2 and cell 4 is `flatten`
applied to cell 3 (flattening twice). -/
def nestWorld (x : Value) : W :=
  { cells := [ { value := x, gen := 0, obs := [], kind := .source },
               { value := .ref 0, gen := 0, obs := [], kind := .source },
               { value := .ref 1, gen := 0, obs := [], kind := .source },
               { value := .unit, gen := 0, obs := [], kind := .derived 2 .idFn true },
               { value := .unit, gen := 0, obs := [], kind := .derived 3 .idFn true } ],
    results := [], nextObsId := 0, trace := [] }

/-- Modelled from the spec: a source cell holding `r` (cell 0) and a
derived cell over it with mapping function `fn` (cell 1), never observed. -/
def mapWorld (fn : Fn) (flat : Bool) (r : Value) : W :=
  { cells := [ { value := r, gen := 0, obs := [], kind := .source },
               { value := .unit, gen := 0, obs := [], kind := .derived 0 fn flat } ],
    results := [], nextObsId := 0, trace := [] }

/-! ### Basic machine lemmas -/

/-- Running an empty stack changes nothing. -/
theorem run_nil_state (f : Nat) (w : W) : (run f w []).1 = w := by
  cases f <;> rfl

/-- One unfolding step of `run`. -/
theorem run_cons (f : Nat) (w : W) (a : Act) (rest : List Act) :
    run (f + 1) w (a :: rest) = run f (step w a).1 ((step w a).2 ++ rest) := rfl

/-- `updateCell` preserves "every observer list is empty" when the update
does. -/
theorem updateCell_obs_nil (w : W) (c : Nat) (f : Cell → Cell)
    (h : ∀ cl ∈ w.cells, cl.obs = []) (hf : ∀ cl, cl.obs = [] → (f cl).obs = []) :
    ∀ cl ∈ (w.updateCell c f).cells, cl.obs = [] := by
  intro cl hcl
  unfold W.updateCell at hcl
  split at hcl
  · next cl0 hg =>
    rcases List.mem_or_eq_of_mem_set hcl with hmem | rfl
    · exact h cl hmem
    · exact hf cl0 (h cl0 (List.get?_mem hg))
  · exact h cl hcl

/-- With no observers anywhere and only `set`s (and empty broadcast loops)
pending, no callback — in particular no mapping function — ever runs, and
no observer appears. -/
theorem run_lazy : ∀ (f : Nat) (w : W) (acts : List Act),
    (∀ cl ∈ w.cells, cl.obs = []) → lazyActs acts →
    mapRuns (run f w acts).1.trace = mapRuns w.trace ∧
    ∀ cl ∈ (run f w acts).1.cells, cl.obs = [] := by
  intro f
  induction f with
  | zero => intro w acts h _; exact ⟨rfl, h⟩
  | succ f ih =>
    intro w acts h hl
    match acts with
    | [] => exact ⟨rfl, h⟩
    | a :: rest =>
      have hrest : lazyActs rest := fun b hb => hl b (List.mem_cons_of_mem a hb)
      rw [run_cons]
      rcases hl a (List.mem_cons_self a rest) with ⟨c, v, rfl⟩ | ⟨c, g, i, rfl⟩
      · cases hc : w.cell c with
        | none =>
          have hstep : step w (.set c v) = (w, []) := by
            simp [step, setStep, hc]
          rw [hstep]
          exact ih w rest h hrest
        | some cl =>
          by_cases hv : v = cl.value
          · have hstep : step w (.set c v) = (w, []) := by
              simp [step, setStep, hc, hv]
            rw [hstep]
            exact ih w rest h hrest
          · have hobs : cl.obs = [] := h cl (List.get?_mem hc)
            have hstep : step w (.set c v) =
                (w.updateCell c (fun x => { x with value := v, gen := cl.gen + 1 }),
                 [.bloop c (cl.gen + 1) 0 []]) := by
              simp [step, setStep, hc, hv, hobs]
            rw [hstep]
            have h' := updateCell_obs_nil w c
              (fun x => { x with value := v, gen := cl.gen + 1 }) h (fun _ hx => hx)
            have hl' : lazyActs ([Act.bloop c (cl.gen + 1) 0 []] ++ rest) := by
              intro b hb
              rcases List.mem_append.1 hb with hb | hb
              · rcases List.mem_singleton.1 hb with rfl
                exact Or.inr ⟨c, cl.gen + 1, 0, rfl⟩
              · exact hrest b hb
            have hend := ih _ ([Act.bloop c (cl.gen + 1) 0 []] ++ rest) h' hl'
            have htr : (w.updateCell c
                (fun x => { x with value := v, gen := cl.gen + 1 })).trace = w.trace := by
              unfold W.updateCell
              split <;> rfl
            rw [htr] at hend
            exact hend
      · have hstep : step w (.bloop c g i []) = (w, []) := by
          simp [step, bloopStep]
        rw [hstep]
        exact ih w rest h hrest

/-! ### The claims -/

/-- C1 (re-entrant generation guard): for the documented scenario — a cell
holding `2`, a first subscriber that sets the rounded value and a second
subscriber that records what it receives — `set(3.5)` produces exactly the
trace: the first subscriber receives `3.5` (generation 1, position 0) and
triggers a nested `set(4)` which delivers `4` to both subscribers
(generation 2, positions 0 and 1), after which the outer broadcast aborts
before delivering `3.5` to the second subscriber; the recorded results are
exactly `[4]` — the second subscriber never sees `3.5`. -/
theorem claim1_reentrant_generation_guard :
    (run 100 reentrantWorld [.set 0 (.num (mkRat 7 2))]).1.results = [.num 4] ∧
    (run 100 reentrantWorld [.set 0 (.num (mkRat 7 2))]).1.trace =
      [.deliver 0 0 1 0 (.num (mkRat 7 2)),
       .deliver 0 0 2 0 (.num 4),
       .deliver 0 1 2 1 (.num 4)] :=
  ⟨rfl, rfl⟩

/-- C3 (duplicate set is a no-op): `set(v)` where `v` equals the current
value under the type's strict equality leaves the whole state — stored
value, generation counter, observer lists, results and event trace —
completely unchanged, and in particular invokes no observer callback. -/
theorem claim3_duplicate_set_noop (f : Nat) (w : W) (c : Nat) (v : Value) (cl : Cell)
    (hc : w.cell c = some cl) (hv : cl.value = v) :
    (run (f + 1) w [.set c v]).1 = w := by
  have hs : step w (.set c v) = (w, []) := by
    simp [step, setStep, hc, hv]
  show (run f (step w (.set c v)).1 ((step w (.set c v)).2 ++ [])).1 = w
  rw [hs]
  exact run_nil_state f w

/-- Witness for C3: setting `2` on the cell of the re-entrant scenario
(which already holds `2`) changes nothing. -/
theorem claim3_duplicate_set_noop_witness :
    (run 6 reentrantWorld [.set 0 (.num 2)]).1 = reentrantWorld :=
  claim3_duplicate_set_noop 5 reentrantWorld 0 (.num 2)
    { value := .num 2, gen := 0,
      obs := [⟨0, .user (.setRound 0)⟩, ⟨1, .user .push⟩], kind := .source }
    rfl rfl

/-- C5 (strict laziness of derived cells): with a derived cell constructed
over a source but never observed, any sequence of `set`s on the source
executes the mapping function zero times and creates no subscription
anywhere; and while Inert, `get()` is a one-shot evaluation — get the
source, apply the mapping function — performed by the pure, state-free
`getV`, so no persistent subscription is created. -/
theorem claim5_strict_laziness (fn : Fn) (flat : Bool) (r : Value) (vs : List Value) (f : Nat) :
    mapRuns (run f (mapWorld fn flat r) (vs.map (fun v => Act.set 0 v))).1.trace = [] ∧
    (∀ cl ∈ (run f (mapWorld fn flat r) (vs.map (fun v => Act.set 0 v))).1.cells,
      cl.obs = []) ∧
    getV 2 (mapWorld fn false r) 1 = applyFn fn r := by
  have h0 : ∀ cl ∈ (mapWorld fn flat r).cells, cl.obs = [] := by
    intro cl hcl
    simp only [mapWorld, List.mem_cons, List.not_mem_nil, or_false] at hcl
    rcases hcl with rfl | rfl <;> rfl
  have hl : lazyActs (vs.map (fun v => Act.set 0 v)) := by
    intro a ha
    rcases List.mem_map.1 ha with ⟨v, _, rfl⟩
    exact Or.inl ⟨0, v, rfl⟩
  have := run_lazy f (mapWorld fn flat r) (vs.map (fun v => Act.set 0 v)) h0 hl
  exact ⟨this.1, this.2, rfl⟩

/-- C6 (flatMap retargeting): for the documented scenario
(`choose = Cell('odds')`, `odds = Cell(1)`, `evens = Cell(2)`,
`derived = choose.flatMap(w => w === 'odds' ? odds : evens)`) with an
immediate recording subscription, the recorded sequence is exactly `1`
(immediate), `2` after `choose.set('evens')`, `4` after `evens.set(4)`,
nothing after `odds.set(3)` (the prefix run records exactly `[1,2,4]`),
and `3` after `choose.set('odds')`; after the final retarget the derived
cell is unsubscribed from `evens` (its observer list is empty) and tracks
`odds` through exactly one inner subscription. -/
theorem claim6_flatMap_retargeting :
    (run 300 retargetWorld retargetScript).1.results =
      [.num 1, .num 2, .num 4, .num 3] ∧
    (run 300 retargetWorld (retargetScript.take 4)).1.results =
      [.num 1, .num 2, .num 4] ∧
    ((run 300 retargetWorld retargetScript).1.cells.get? 1).map Cell.obs = some [] ∧
    ((run 300 retargetWorld retargetScript).1.cells.get? 0).map Cell.obs =
      some [⟨4, .ifwd 3⟩] :=
  ⟨rfl, rfl, rfl, rfl⟩

/-- C7 (refCount ordering window): in the documented priming scenario
(`v = Cell(0)`; a refCount observer doing `if (count > 0) v.set(42)`; then
an immediate recording subscription on `v`), the refCount cell's broadcast
— including the observer that re-sets `v` — completes before `v`'s value is
handed to the new observer's immediate callback: the trace is exactly the
immediate `0` to the refCount observer, then the delivery of count `1` on
the refCount cell, then the immediate call with `42`; the recorded results
are exactly `[42]`, never `0`. -/
theorem claim7_refCount_priming_order :
    (run 300 primingWorld primingScript).1.results = [.num 42] ∧
    (run 300 primingWorld primingScript).1.trace =
      [.icall 0 (.num 0), .deliver 1 0 1 0 (.num 1), .icall 1 (.num 42)] :=
  ⟨rfl, rfl⟩

/-- `updateCell` never touches the event trace. -/
theorem updateCell_trace (w : W) (c : Nat) (f : Cell → Cell) :
    (w.updateCell c f).trace = w.trace := by
  unfold W.updateCell; split <;> rfl

/-- C8 (refCount counting): the count increments exactly when an
Observation is created — every `subscribe` on a cell with a materialized
refCount cell `r` queues, before the immediate call and the append, exactly
the refCount broadcast setting `r` to the observer count plus one — and
decrements exactly when an Observation is stopped — `stop` of a registered
observer queues the broadcast setting `r` to the remaining count first,
while `stop` of an unregistered (already stopped) observer is a complete
no-op. Consequently, in the documented scenario (an immediate subscription
to `refCount()` on a cell holding `42`, then creating two observations and
stopping both) the recorded liveness sequence is exactly `[0,1,2,1,0]`. -/
theorem claim8_refCount_counting :
    (∀ (w : W) (c : Nat) (cl : Cell) (r : Nat) (imm : Bool) (cb : Cb) (reg : Reg),
      w.cell c = some cl → cl.rc = some r →
      ∃ pre, (subStep w c imm cb reg).2 =
        pre ++ [.set r (.num (intRat (cl.obs.length + 1 : Nat)))] ++
        (if imm then [.icall c w.nextObsId cb] else []) ++
        [.append c w.nextObsId cb]) ∧
    (∀ (w : W) (c oid : Nat) (cl : Cell) (r : Nat),
      w.cell c = some cl → cl.rc = some r →
      (cl.obs.any fun o => o.oid == oid) = true →
      ∃ post, (stopStep w c oid).2 =
        .set r (.num (intRat ((cl.obs.filter fun o => o.oid != oid).length : Nat)))
          :: post) ∧
    (∀ (w : W) (c oid : Nat) (cl : Cell),
      w.cell c = some cl → (cl.obs.any fun o => o.oid == oid) = false →
      stopStep w c oid = (w, [])) ∧
    (run 40 (countingWorld (.num 42)) countingScript).1.results =
      [.num 0, .num 1, .num 2, .num 1, .num 0] := by
  refine ⟨?_, ?_, ?_, rfl⟩
  · intro w c cl r imm cb reg h1 h2
    unfold subStep subCore
    rw [h1]
    rcases hk : cl.kind with _ | ⟨s, fn, flat⟩ | ⟨n, u⟩ <;> simp only [hk, h2]
    · exact ⟨_, rfl⟩
    · by_cases ha : cl.active = true <;>
        simp only [ha, if_true, if_false, Bool.false_eq_true] <;> exact ⟨_, rfl⟩
    · by_cases ha : cl.active = true <;>
        simp only [ha, if_true, if_false, Bool.false_eq_true] <;> exact ⟨_, rfl⟩
  · intro w c oid cl r h1 h2 h3
    unfold stopStep
    rw [h1]
    simp only [h3, h2, if_true]
    exact ⟨_, rfl⟩
  · intro w c oid cl h1 h3
    unfold stopStep
    simp [h1, h3]

/-- Witness for C8: on the documented counting scenario, the second
subscription's expansion carries the refCount update to `2` ahead of the
immediate call and the append, stopping observation `1` queues the update
back to `1`, and a repeated stop of the same observation is a no-op. -/
theorem claim8_refCount_counting_witness :
    (∃ pre, (subStep (run 20 (countingWorld (.num 42)) (countingScript.take 2)).1
        0 true (.user .noop) .free).2 =
      pre ++ [.set 1 (.num (intRat 2))] ++
      [.icall 0 2 (.user .noop)] ++ [.append 0 2 (.user .noop)]) ∧
    (∃ post, (stopStep (run 30 (countingWorld (.num 42)) (countingScript.take 3)).1 0 1).2 =
      .set 1 (.num (intRat 1)) :: post) ∧
    stopStep (run 40 (countingWorld (.num 42)) (countingScript ++ [.stopOb 0 1])).1 0 1 =
      ((run 40 (countingWorld (.num 42)) (countingScript ++ [.stopOb 0 1])).1, []) := by
  refine ⟨?_, ?_, ?_⟩
  · exact claim8_refCount_counting.1
      (run 20 (countingWorld (.num 42)) (countingScript.take 2)).1 0
      { value := .num 42, gen := 0, obs := [⟨1, .user .noop⟩], kind := .source, rc := some 1 }
      1 true (.user .noop) .free rfl rfl
  · exact claim8_refCount_counting.2.1
      (run 30 (countingWorld (.num 42)) (countingScript.take 3)).1 0 1
      { value := .num 42, gen := 0, obs := [⟨1, .user .noop⟩, ⟨2, .user .noop⟩],
        kind := .source, rc := some 1 }
      1 rfl rfl rfl
  · exact claim8_refCount_counting.2.2.1
      (run 40 (countingWorld (.num 42)) (countingScript ++ [Act.stopOb 0 1])).1 0 1
      { value := .num 42, gen := 0, obs := [], kind := .source, rc := some 1 }
      rfl rfl

/-- C9 (managed-cell lifecycle): when a managed cell with `n` resource
factories gains its first observer (it is not yet active), the `subscribe`
runs every factory exactly once, in declared order; when it is already
active, a further `subscribe` creates no resource at all; releasing runs
the release capability of each resource exactly once, in the same declared
order; and the documented scenario (observe, stop, re-observe, stop on a
two-factory managed cell) yields exactly the resource trace
create 0, create 1, destroy 0, destroy 1, create 0, create 1, destroy 0,
destroy 1 — each activation re-runs the factories and the compute function
(the observer records `42` after each activation). -/
theorem claim9_managed_lifecycle :
    (∀ (w : W) (c : Nat) (cl : Cell) (n : Nat) (u : Value) (imm : Bool) (cb : Cb) (reg : Reg),
      w.cell c = some cl → cl.kind = .managed n u → cl.active = false →
      (subStep w c imm cb reg).1.trace =
        w.trace ++ (List.range n).map (fun i => Ev.create c i)) ∧
    (∀ (w : W) (c : Nat) (cl : Cell) (n : Nat) (u : Value) (imm : Bool) (cb : Cb) (reg : Reg),
      w.cell c = some cl → cl.kind = .managed n u → cl.active = true →
      (subStep w c imm cb reg).1.trace = w.trace) ∧
    (∀ (w : W) (d : Nat) (cl : Cell) (n : Nat) (u : Value),
      w.cell d = some cl → cl.kind = .managed n u →
      (destroyStep w d).1.trace =
        w.trace ++ (List.range n).map (fun i => Ev.destroy d i)) ∧
    resEvents (run 300 (managedWorld 2) managedScript).1.trace =
      [.create 0 0, .create 0 1, .destroy 0 0, .destroy 0 1,
       .create 0 0, .create 0 1, .destroy 0 0, .destroy 0 1] ∧
    (run 300 (managedWorld 2) managedScript).1.results = [.num 42, .num 42] := by
  refine ⟨?_, ?_, ?_, rfl, rfl⟩
  · intro w c cl n u imm cb reg h1 h2 h3
    unfold subStep subCore
    rw [h1]
    simp only [h2, h3, Bool.false_eq_true, if_false]
    cases reg <;> simp [updateCell_trace]
  · intro w c cl n u imm cb reg h1 h2 h3
    unfold subStep subCore
    rw [h1]
    simp only [h2, h3, if_true]
    cases reg <;> simp [updateCell_trace]
  · intro w d cl n u h1 h2
    simp only [destroyStep, h1, h2]

/-- Witness for C9: on the documented two-factory scenario, the first
subscription creates both resources in order, a subscription while active
creates none, and releasing logs both destroys in order. -/
theorem claim9_managed_lifecycle_witness :
    (subStep (managedWorld 2) 0 true (.user .push) .free).1.trace =
      [.create 0 0, .create 0 1] ∧
    (subStep (run 20 (managedWorld 2) (managedScript.take 1)).1
        0 true (.user .push) .free).1.trace =
      (run 20 (managedWorld 2) (managedScript.take 1)).1.trace ∧
    (destroyStep (managedWorld 2) 0).1.trace = [.destroy 0 0, .destroy 0 1] := by
  refine ⟨?_, ?_, ?_⟩
  · exact claim9_managed_lifecycle.1 (managedWorld 2) 0 _ 2 (.num 42) true
      (.user .push) .free rfl rfl rfl
  · exact claim9_managed_lifecycle.2.1 _ 0 _ 2 (.num 42) true (.user .push) .free
      rfl rfl rfl
  · exact claim9_managed_lifecycle.2.2.1 (managedWorld 2) 0 _ 2 (.num 42) rfl rfl

/-- C10 (flattening removes exactly one layer): for every innermost value
`x`, in the doubly nested graph `Cell[Cell[Cell[x]]]` a single `flatten`
yields a cell whose observed value is still a cell (the reference to cell
0), and flattening twice yields `x` itself. -/
theorem claim10_flatten_one_layer (x : Value) :
    getV 10 (nestWorld x) 3 = .ref 0 ∧ getV 10 (nestWorld x) 4 = x :=
  ⟨rfl, rfl⟩

/-! ### The broadcast ordering contract (C2) -/

/-- `perCell` distributes over trace extension. -/
theorem perCell_append (c : Nat) (tr ext : List Ev) :
    perCell c (tr ++ ext) = perCell c tr ++ perCell c ext :=
  List.filterMap_append tr ext (delKey c)

/-- Extending the trace by non-delivery events leaves every `perCell`
projection unchanged. -/
theorem perCell_append_none {c : Nat} {ext : List Ev}
    (h : ∀ e ∈ ext, delKey c e = none) (tr : List Ev) :
    perCell c (tr ++ ext) = perCell c tr := by
  rw [perCell_append]
  have : perCell c ext = [] := List.filterMap_eq_nil.mpr h
  rw [this, List.append_nil]

/-- A gen-preserving cell update leaves every generation unchanged. -/
theorem genOf_updateCell (w : W) (c : Nat) (f : Cell → Cell)
    (hf : ∀ cl, (f cl).gen = cl.gen) (c' : Nat) :
    genOf (w.updateCell c f) c' = genOf w c' := by
  unfold genOf W.cell W.updateCell
  cases hc : w.cells.get? c with
  | none => rfl
  | some cl =>
    show (match (w.cells.set c (f cl)).get? c' with
      | some cl' => cl'.gen | none => 0) = _
    rw [List.get?_set]
    by_cases h : c = c'
    · subst h
      rw [hc]
      simp [hf]
    · simp [h]

/-- Appending a generation-0 cell leaves every generation unchanged. -/
theorem genOf_cells_append (w : W) (cl : Cell) (hg : cl.gen = 0)
    (rs : List Value) (no : Nat) (tr : List Ev) (c' : Nat) :
    genOf { cells := w.cells ++ [cl], results := rs, nextObsId := no, trace := tr } c' =
      genOf w c' := by
  unfold genOf W.cell
  rcases Nat.lt_trichotomy c' w.cells.length with h | h | h
  · show (match (w.cells ++ [cl]).get? c' with | some x => x.gen | none => 0) = _
    rw [List.get?_append h]
  · subst h
    show (match (w.cells ++ [cl]).get? w.cells.length with | some x => x.gen | none => 0) = _
    rw [List.get?_append_right (Nat.le_refl _), Nat.sub_self]
    have : w.cells.get? w.cells.length = none := List.get?_eq_none.mpr (Nat.le_refl _)
    rw [this]
    exact hg
  · show (match (w.cells ++ [cl]).get? c' with | some x => x.gen | none => 0) = _
    have h1 : w.cells.length ≤ c' := Nat.le_of_lt h
    rw [List.get?_append_right h1]
    have h2 : ([cl].get? (c' - w.cells.length)) = none := by
      apply List.get?_eq_none.mpr
      simp only [List.length_singleton]
      omega
    have h3 : w.cells.get? c' = none := List.get?_eq_none.mpr h1
    rw [h2, h3]

/-- The pending broadcast keys of a stack with a non-broadcast head. -/
theorem pend_cons_none (a : Act) (h : bloopKey a = none) (rest : List Act) :
    pend (a :: rest) = pend rest := by
  unfold pend
  rw [List.filterMap_cons, h]

/-- The pending broadcast keys of a stack with a broadcast head. -/
theorem pend_cons_some (a : Act) (b : Nat × Nat × Nat) (h : bloopKey a = some b)
    (rest : List Act) : pend (a :: rest) = b :: pend rest := by
  unfold pend
  rw [List.filterMap_cons, h]

/-- `pend` distributes over stack concatenation. -/
theorem pend_append (l1 l2 : List Act) : pend (l1 ++ l2) = pend l1 ++ pend l2 :=
  List.filterMap_append l1 l2 bloopKey

/-- The invariant survives a step that records no delivery, changes no
generation and queues no broadcast loop. -/
theorem Inv.carry {w w' : W} {a : Act} {rest acts2 : List Act}
    (h : Inv w (a :: rest))
    (htr : ∀ c, perCell c w'.trace = perCell c w.trace)
    (hg : ∀ c, genOf w' c = genOf w c)
    (hp : pend acts2 = []) : Inv w' (acts2 ++ rest) := by
  have hpe : pend (acts2 ++ rest) = pend rest := by
    rw [pend_append, hp, List.nil_append]
  have hsub : List.Sublist (pend rest) (pend (a :: rest)) := by
    cases hA : bloopKey a with
    | none => rw [pend_cons_none a hA]
    | some b => rw [pend_cons_some a b hA]; exact List.sublist_cons_self _ _
  constructor
  · intro c e he
    rw [htr] at he
    rw [hg]
    exact h.bound c e he
  · intro c
    rw [htr]
    exact h.chain c
  · intro b hb
    rw [hpe] at hb
    have hB := h.bkey b (hsub.mem hb)
    refine ⟨by rw [hg]; exact hB.1, ?_⟩
    intro h1 e he
    rw [htr] at he
    rw [hg] at h1
    exact hB.2 h1 e he
  · rw [hpe]
    exact h.bdis.sublist hsub

/-- A trace-only record update leaves every generation unchanged. -/
theorem genOf_set_trace (w : W) (t : List Ev) (c : Nat) :
    genOf { w with trace := t } c = genOf w c := rfl

/-- The generation of a looked-up cell. -/
theorem genOf_eq (w : W) (c : Nat) (cl : Cell) (hc : w.cell c = some cl) :
    genOf w c = cl.gen := by
  unfold genOf
  rw [hc]

/-- The generation of the updated cell. -/
theorem genOf_updateCell_self (w : W) (c : Nat) (f : Cell → Cell) (cl : Cell)
    (hc : w.cell c = some cl) : genOf (w.updateCell c f) c = (f cl).gen := by
  unfold W.cell at hc
  unfold genOf W.cell W.updateCell
  rw [hc]
  show (match (w.cells.set c (f cl)).get? c with | some x => x.gen | none => 0) = _
  have hc2 : w.cells[c]? = some cl := by
    rw [← List.get?_eq_getElem?]
    exact hc
  have hset : (w.cells.set c (f cl)).get? c = some (f cl) := by
    rw [List.get?_set]
    simp [hc2]
  rw [hset]

/-- The generation of any other cell after an update. -/
theorem genOf_updateCell_ne (w : W) (c c' : Nat) (f : Cell → Cell) (h : c ≠ c') :
    genOf (w.updateCell c f) c' = genOf w c' := by
  unfold genOf W.cell W.updateCell
  cases hc : w.cells.get? c with
  | none => rfl
  | some cl =>
    show (match (w.cells.set c (f cl)).get? c' with | some x => x.gen | none => 0) = _
    rw [List.get?_set_ne _ _ h]

/-- An accepted `set` preserves the invariant: the new value gets a strictly
newer generation, so the fresh broadcast loop cannot collide with any
recorded delivery or pending loop. -/
theorem inv_set_accepted (w : W) (rest : List Act) (c : Nat) (v : Value) (cl : Cell)
    (hc : w.cell c = some cl) (h : Inv w (.set c v :: rest)) :
    Inv (w.updateCell c fun x => { x with value := v, gen := cl.gen + 1 })
      ([Act.bloop c (cl.gen + 1) 0 cl.obs] ++ rest) := by
  have htr : (w.updateCell c fun x => { x with value := v, gen := cl.gen + 1 }).trace
      = w.trace := updateCell_trace _ _ _
  have hgc : genOf (w.updateCell c fun x => { x with value := v, gen := cl.gen + 1 }) c
      = cl.gen + 1 := genOf_updateCell_self w c _ cl hc
  have hg0 : genOf w c = cl.gen := genOf_eq w c cl hc
  have hrest : pend (Act.set c v :: rest) = pend rest := pend_cons_none (Act.set c v) rfl rest
  have hpendNew : pend ([Act.bloop c (cl.gen + 1) 0 cl.obs] ++ rest)
      = (c, cl.gen + 1, 0) :: pend rest := by
    rw [pend_append]
    rfl
  constructor
  · intro c' e he
    rw [htr] at he
    by_cases hcc : c = c'
    · subst hcc
      rw [hgc]
      have := h.bound c e he
      omega
    · rw [genOf_updateCell_ne w c c' _ hcc]
      exact h.bound c' e he
  · intro c'
    rw [htr]
    exact h.chain c'
  · intro b hb
    rw [hpendNew] at hb
    rcases List.mem_cons.mp hb with rfl | hb
    · refine ⟨by rw [hgc], ?_⟩
      intro _ e he h1
      rw [htr] at he
      have := h.bound c e he
      rw [hg0] at this
      simp only at h1
      omega
    · have hB := h.bkey b (by rw [hrest]; exact hb)
      by_cases hcc : c = b.1
      · refine ⟨?_, ?_⟩
        · rw [← hcc, hgc]
          have := hB.1
          rw [← hcc, hg0] at this
          omega
        · intro h1
          rw [← hcc, hgc] at h1
          have := hB.1
          rw [← hcc, hg0] at this
          omega
      · refine ⟨?_, ?_⟩
        · rw [genOf_updateCell_ne w c b.1 _ hcc]
          exact hB.1
        · intro h1 e he h2
          rw [htr] at he
          rw [genOf_updateCell_ne w c b.1 _ hcc] at h1
          exact hB.2 h1 e he h2
  · rw [hpendNew]
    refine List.pairwise_cons.mpr ⟨?_, ?_⟩
    · intro b hb heq
      have hB := h.bkey b (by rw [hrest]; exact hb)
      have := hB.1
      rw [← heq, hg0] at this
      simp only
      omega
    · rw [← hrest]
      exact h.bdis
  
/-- Skipping a stopped observer preserves the invariant: the broadcast loop
advances its position without recording a delivery. -/
theorem inv_bloop_skip (w : W) (rest : List Act) (c g idx : Nat) (o : Obs) (snap : List Obs)
    (h : Inv w (.bloop c g idx (o :: snap) :: rest)) :
    Inv w ([Act.bloop c g (idx + 1) snap] ++ rest) := by
  have hpendOld : pend (Act.bloop c g idx (o :: snap) :: rest) = (c, g, idx) :: pend rest :=
    pend_cons_some (Act.bloop c g idx (o :: snap)) (c, g, idx) rfl rest
  have hpendNew : pend ([Act.bloop c g (idx + 1) snap] ++ rest)
      = (c, g, idx + 1) :: pend rest := by
    rw [pend_append]
    rfl
  have hHead := h.bkey (c, g, idx) (by rw [hpendOld]; exact List.mem_cons_self _ _)
  constructor
  · exact h.bound
  · exact h.chain
  · intro b hb
    rw [hpendNew] at hb
    rcases List.mem_cons.mp hb with rfl | hb
    · refine ⟨hHead.1, ?_⟩
      intro h1 e he h2
      have := hHead.2 h1 e he h2
      simp only at this ⊢
      omega
    · exact h.bkey b (by rw [hpendOld]; exact List.mem_cons_of_mem _ hb)
  · rw [hpendNew]
    have hdis := h.bdis
    rw [hpendOld] at hdis
    rcases List.pairwise_cons.mp hdis with ⟨hhead, htail⟩
    exact List.pairwise_cons.mpr ⟨hhead, htail⟩

/-- A delivery preserves the invariant: it is recorded only while the
loop's generation is still the cell's current one, stamped with the next
snapshot position. -/
theorem inv_bloop_deliver (w : W) (rest : List Act) (c g idx : Nat) (o : Obs)
    (snap : List Obs) (cl : Cell) (hc : w.cell c = some cl) (hgen : cl.gen = g)
    (h : Inv w (.bloop c g idx (o :: snap) :: rest)) :
    Inv { w with trace := w.trace ++ [.deliver c o.oid g idx cl.value] }
      ([Act.runCb o.cb cl.value, Act.bloop c g (idx + 1) snap] ++ rest) := by
  have hgw : genOf w c = g := by rw [genOf_eq w c cl hc, hgen]
  have hpendOld : pend (Act.bloop c g idx (o :: snap) :: rest) = (c, g, idx) :: pend rest :=
    pend_cons_some (Act.bloop c g idx (o :: snap)) (c, g, idx) rfl rest
  have hpendNew : pend ([Act.runCb o.cb cl.value, Act.bloop c g (idx + 1) snap] ++ rest)
      = (c, g, idx + 1) :: pend rest := by
    rw [pend_append]
    rfl
  have hHead := h.bkey (c, g, idx) (by rw [hpendOld]; exact List.mem_cons_self _ _)
  have hcond : ∀ e ∈ perCell c w.trace, e.1 = g → e.2 < idx := by
    intro e he h2
    exact hHead.2 (by rw [hgw]) e he h2
  have hC : perCell c (w.trace ++ [Ev.deliver c o.oid g idx cl.value])
      = perCell c w.trace ++ [(g, idx)] := by
    rw [perCell_append]
    simp [perCell, delKey]
  have hNe : ∀ c', c' ≠ c → perCell c' (w.trace ++ [Ev.deliver c o.oid g idx cl.value])
      = perCell c' w.trace := by
    intro c' hne
    apply perCell_append_none
    intro e he
    rcases List.mem_singleton.mp he with rfl
    simp [delKey, Ne.symm hne]
  constructor
  · intro c' e he
    rw [genOf_set_trace]
    by_cases hcc : c' = c
    · subst hcc
      rw [hC] at he
      rcases List.mem_append.mp he with he | he
      · exact h.bound c' e he
      · rcases List.mem_singleton.mp he with rfl
        rw [hgw]
    · rw [hNe c' hcc] at he
      exact h.bound c' e he
  · intro c'
    show List.Chain' lexLt (perCell c' (w.trace ++ [Ev.deliver c o.oid g idx cl.value]))
    by_cases hcc : c' = c
    · subst hcc
      rw [hC]
      refine List.chain'_append.mpr ⟨h.chain c', List.chain'_singleton _, ?_⟩
      intro x hx y hy
      rcases List.mem_singleton.mp (by simpa using hy) with rfl
      have hxmem : x ∈ perCell c' w.trace := by
        rcases List.mem_getLast?_eq_getLast hx with ⟨hne, rfl⟩
        exact List.getLast_mem hne
      have hb := h.bound c' x hxmem
      rw [hgw] at hb
      rcases Nat.lt_or_ge x.1 g with hlt | hge
      · exact Or.inl hlt
      · have heq : x.1 = g := Nat.le_antisymm hb hge
        exact Or.inr ⟨heq, hcond x hxmem heq⟩
    · rw [hNe c' hcc]
      exact h.chain c'
  · intro b hb
    rw [hpendNew] at hb
    rcases List.mem_cons.mp hb with rfl | hb
    · refine ⟨?_, ?_⟩
      · rw [genOf_set_trace, hgw]
      · intro _ e he h2
        rw [hC] at he
        simp only at h2 ⊢
        rcases List.mem_append.mp he with he | he
        · have := hcond e he h2
          omega
        · rcases List.mem_singleton.mp he with rfl
          omega
    · have hB := h.bkey b (by rw [hpendOld]; exact List.mem_cons_of_mem _ hb)
      by_cases hcc : b.1 = c
      · have hdis := h.bdis
        rw [hpendOld] at hdis
        have hne := (List.pairwise_cons.mp hdis).1 b hb hcc.symm
        refine ⟨by rw [genOf_set_trace]; exact hB.1, ?_⟩
        intro h1
        rw [genOf_set_trace, hcc, hgw] at h1
        exact absurd h1 (Ne.symm hne)
      · refine ⟨by rw [genOf_set_trace]; exact hB.1, ?_⟩
        intro h1 e he h2
        rw [genOf_set_trace] at h1
        rw [hNe b.1 hcc] at he
        exact hB.2 h1 e he h2
  · rw [hpendNew]
    have hdis := h.bdis
    rw [hpendOld] at hdis
    rcases List.pairwise_cons.mp hdis with ⟨hhead, htail⟩
    exact List.pairwise_cons.mpr ⟨hhead, htail⟩
  
/-- The invariant survives extending the trace by non-delivery events
(map runs, immediate calls, resource events) while queueing no broadcast. -/
theorem Inv.carryEv {w : W} {a : Act} {rest acts2 : List Act} (h : Inv w (a :: rest))
    (ext : List Ev) (hext : ∀ c, ∀ e ∈ ext, delKey c e = none)
    (hp : pend acts2 = []) :
    Inv { w with trace := w.trace ++ ext } (acts2 ++ rest) :=
  h.carry (fun c => perCell_append_none (hext c) w.trace) (fun _ => rfl) hp

/-- Resource events are never deliveries. -/
theorem delKey_create (c d : Nat) : ∀ e ∈ (List.range d).map (fun i => Ev.create c i),
    ∀ c', delKey c' e = none := by
  intro e he c'
  rcases List.mem_map.mp he with ⟨i, _, rfl⟩
  rfl

/-- Release events are never deliveries. -/
theorem delKey_destroy (c d : Nat) : ∀ e ∈ (List.range d).map (fun i => Ev.destroy c i),
    ∀ c', delKey c' e = none := by
  intro e he c'
  rcases List.mem_map.mp he with ⟨i, _, rfl⟩
  rfl

/-- The update lambdas of the machine preserve generations: recording an
inner subscription. -/
theorem genOf_upd_innerSub (w : W) (d : Nat) (p : Option (Nat × Nat)) (c' : Nat) :
    genOf (w.updateCell d fun x => { x with innerSub := p }) c' = genOf w c' := by
  apply genOf_updateCell
  intro x
  rfl

/-- Recording a source subscription preserves generations. -/
theorem genOf_upd_srcSub (w : W) (d : Nat) (p : Option (Nat × Nat)) (c' : Nat) :
    genOf (w.updateCell d fun x => { x with srcSub := p }) c' = genOf w c' := by
  apply genOf_updateCell
  intro x
  rfl

/-- Toggling the activity flag preserves generations. -/
theorem genOf_upd_active (w : W) (d : Nat) (b : Bool) (c' : Nat) :
    genOf (w.updateCell d fun x => { x with active := b }) c' = genOf w c' := by
  apply genOf_updateCell
  intro x
  rfl

/-- Replacing an observer list preserves generations. -/
theorem genOf_upd_obs (w : W) (d : Nat) (f : List Obs → List Obs) (c' : Nat) :
    genOf (w.updateCell d fun x => { x with obs := f x.obs }) c' = genOf w c' := by
  apply genOf_updateCell
  intro x
  rfl

/-- Deactivating a derived cell preserves generations. -/
theorem genOf_upd_deact (w : W) (d : Nat) (b : Bool) (p q : Option (Nat × Nat)) (c' : Nat) :
    genOf (w.updateCell d fun x => { x with active := b, srcSub := p, innerSub := q }) c'
      = genOf w c' := by
  apply genOf_updateCell
  intro x
  rfl

/-- Deactivating a managed cell preserves generations. -/
theorem genOf_upd_deact_m (w : W) (d : Nat) (b : Bool) (q : Option (Nat × Nat)) (c' : Nat) :
    genOf (w.updateCell d fun x => { x with active := b, innerSub := q }) c' = genOf w c' := by
  apply genOf_updateCell
  intro x
  rfl

/-- Allocating the fresh inner cell of a managed activation preserves
generations (the new cell starts at generation 0, the default of a missing
id). -/
theorem genOf_new_inner (w : W) (u : Value) (rs : List Value) (no : Nat) (tr : List Ev)
    (c' : Nat) :
    genOf { cells := w.cells ++ [{ value := u, gen := 0, obs := [], kind := .source }],
            results := rs, nextObsId := no, trace := tr } c' = genOf w c' :=
  genOf_cells_append w _ rfl rs no tr c'

/-- A record update that keeps the cell list preserves generations. -/
theorem genOf_mk (w : W) (rs : List Value) (no : Nat) (tr : List Ev) (c' : Nat) :
    genOf { cells := w.cells, results := rs, nextObsId := no, trace := tr } c' = genOf w c' :=
  rfl

/-- Every step of the machine preserves the broadcast invariant. -/
theorem step_inv (w : W) (a : Act) (rest : List Act) (h : Inv w (a :: rest)) :
    Inv (step w a).1 ((step w a).2 ++ rest) := by
  cases a with
  | set c v =>
    show Inv (setStep w c v).1 ((setStep w c v).2 ++ rest)
    unfold setStep
    split
    · exact h.carry (fun _ => rfl) (fun _ => rfl) rfl
    · next cl hc =>
      split
      · exact h.carry (fun _ => rfl) (fun _ => rfl) rfl
      · exact inv_set_accepted w rest c v cl hc h
  | bloop c g idx snap =>
    show Inv (bloopStep w c g idx snap).1 ((bloopStep w c g idx snap).2 ++ rest)
    unfold bloopStep
    split
    · exact h.carry (fun _ => rfl) (fun _ => rfl) rfl
    · next o snap' =>
      split
      · exact h.carry (fun _ => rfl) (fun _ => rfl) rfl
      · next cl hc =>
        split
        · next hgen =>
          split
          · next hmem => exact inv_bloop_deliver w rest c g idx o snap' cl hc hgen h
          · exact inv_bloop_skip w rest c g idx o snap' h
        · exact h.carry (fun _ => rfl) (fun _ => rfl) rfl
  | runCb cb v =>
    show Inv (cbRun w cb v).1 ((cbRun w cb v).2 ++ rest)
    cases cb with
    | user u =>
      show Inv (userRun w u v).1 ((userRun w u v).2 ++ rest)
      unfold userRun
      split
      · exact h.carry (fun _ => rfl) (fun _ => rfl) rfl
      · exact h.carry (fun _ => rfl) (fun _ => rfl) rfl
      · exact h.carry (fun _ => rfl) (fun _ => rfl) rfl
      · split
        · split
          · exact h.carry (fun _ => rfl) (fun _ => rfl) rfl
          · exact h.carry (fun _ => rfl) (fun _ => rfl) rfl
        · exact h.carry (fun _ => rfl) (fun _ => rfl) rfl
    | fwd d =>
      show Inv (fwdRun w d v).1 ((fwdRun w d v).2 ++ rest)
      unfold fwdRun
      have hone : ∀ c', ∀ e ∈ [Ev.mapRun d], delKey c' e = none := by
        intro c' e he
        rcases List.mem_singleton.mp he with rfl
        rfl
      cases hd : w.cell d with
      | none => exact h.carry (fun _ => rfl) (fun _ => rfl) rfl
      | some cl =>
        rcases hk : cl.kind with _ | ⟨s, fn, flat⟩ | ⟨n, u⟩ <;> (try simp only [hk]) <;>
          [exact h.carry (fun _ => rfl) (fun _ => rfl) rfl;
           skip;
           exact h.carry (fun _ => rfl) (fun _ => rfl) rfl]
        cases flat <;> (try simp only [Bool.false_eq_true, if_false, if_true]) <;>
          cases hmv : applyFn fn v <;> (try simp only [hmv]) <;>
          (try cases his : cl.innerSub <;> (try simp only [his])) <;>
          exact h.carryEv [Ev.mapRun d] hone (by rfl)
    | ifwd d => exact h.carry (fun _ => rfl) (fun _ => rfl) rfl
  | icall c oid cb =>
    show Inv (icallStep w c oid cb).1 ((icallStep w c oid cb).2 ++ rest)
    unfold icallStep
    split
    · exact h.carry (fun _ => rfl) (fun _ => rfl) rfl
    · next cl hc =>
      exact h.carryEv [Ev.icall oid cl.value]
        (by intro c' e he; rcases List.mem_singleton.mp he with rfl; rfl) rfl
  | append c oid cb =>
    show Inv (appendStep w c oid cb).1 ((appendStep w c oid cb).2 ++ rest)
    unfold appendStep
    exact h.carry
      (fun c' => by rw [updateCell_trace])
      (fun c' => by apply genOf_updateCell <;> intro x <;> rfl)
      rfl
  | destroyRes d =>
    show Inv (destroyStep w d).1 ((destroyStep w d).2 ++ rest)
    unfold destroyStep
    split
    · exact h.carry (fun _ => rfl) (fun _ => rfl) rfl
    · split
      · rename_i n u heq
        exact h.carryEv ((List.range n).map (fun i => Ev.destroy d i))
          (fun c' e he => delKey_destroy d n e he c') rfl
      · exact h.carry (fun _ => rfl) (fun _ => rfl) rfl
  | sub c imm cb reg =>
    show Inv (subStep w c imm cb reg).1 ((subStep w c imm cb reg).2 ++ rest)
    unfold subStep subCore
    cases hc : w.cell c with
    | none => exact h.carry (fun _ => rfl) (fun _ => rfl) rfl
    | some cl =>
      rcases hk : cl.kind with _ | ⟨s, fn, flat⟩ | ⟨n, u⟩ <;>
        (try simp only [hk]) <;>
        cases ha : cl.active <;>
        (try simp only [ha, Bool.false_eq_true, if_false, if_true]) <;>
        cases reg <;> cases hrc : cl.rc <;>
        (try simp only [hrc]) <;> cases imm <;>
        refine h.carry (fun c' => ?_) (fun c' => ?_) (by rfl) <;>
        (try simp only [updateCell_trace, genOf_mk, genOf_upd_innerSub, genOf_upd_srcSub,
          genOf_upd_active, genOf_new_inner]) <;>
        first
        | rfl
        | exact perCell_append_none (fun e he => delKey_create c n e he c') w.trace
        | skip
  | stopOb c oid =>
    show Inv (stopStep w c oid).1 ((stopStep w c oid).2 ++ rest)
    unfold stopStep
    cases hc : w.cell c with
    | none => exact h.carry (fun _ => rfl) (fun _ => rfl) rfl
    | some cl =>
      by_cases hany : (cl.obs.any fun o => o.oid == oid) = true <;>
        (try simp only [hany, Bool.false_eq_true, if_false, if_true]) <;>
        [skip; exact h.carry (fun _ => rfl) (fun _ => rfl) rfl]
      by_cases hde : ((cl.obs.filter fun o => o.oid != oid).isEmpty && cl.active) = true <;>
        (try simp only [hde, Bool.false_eq_true, if_false, if_true]) <;>
        rcases hk : cl.kind with _ | ⟨s, fn, flat⟩ | ⟨n, u⟩ <;>
        (try simp only [hk]) <;>
        cases hrc : cl.rc <;> (try simp only [hrc]) <;>
        (try cases hss : cl.srcSub <;> try simp only [hss]) <;>
        (try cases his : cl.innerSub <;> try simp only [his]) <;>
        refine h.carry (fun c' => ?_) (fun c' => ?_) (by rfl) <;>
        (try simp only [updateCell_trace, genOf_mk, genOf_upd_obs, genOf_upd_deact,
          genOf_upd_deact_m]) <;>
        first
        | rfl
        | (apply genOf_updateCell <;> intro x <;> rfl)
        | skip
/-- The broadcast invariant holds along any run, whatever the fuel. -/
theorem run_inv : ∀ (f : Nat) (w : W) (acts : List Act), Inv w acts →
    traceOrdered (run f w acts).1.trace := by
  intro f
  induction f with
  | zero => intro w acts h; exact h.chain
  | succ f ih =>
    intro w acts h
    match acts with
    | [] => exact h.chain
    | a :: rest =>
      rw [run_cons]
      exact ih _ _ (step_inv w a rest h)

/-- A state with an empty trace and a stack without in-flight broadcast
loops satisfies the broadcast invariant. -/
theorem Inv_init (w : W) (acts : List Act) (h1 : w.trace = []) (h2 : pend acts = []) :
    Inv w acts := by
  constructor
  · intro c e he
    rw [h1] at he
    exact absurd he (List.not_mem_nil e)
  · intro c
    rw [h1]
    exact List.chain'_nil
  · intro b hb
    rw [h2] at hb
    exact absurd hb (List.not_mem_nil b)
  · rw [h2]
    exact List.Pairwise.nil

/-- C2 (broadcast ordering): on every run of the machine from an initial
state (empty trace, no in-flight broadcast), the per-cell delivery stamps
are lexicographically ordered by (generation, snapshot position): within a
single broadcast — one cell and one generation — observers are handed the
value in strictly increasing position of the registration-ordered
snapshot, i.e. in strict first-registration order; and across a whole
synchronous cascade a cell's deliveries never step back to an older
generation, so no observer is ever handed a value older than one already
delivered to an earlier-registered observer. -/
theorem claim2_broadcast_ordering (f : Nat) (w : W) (acts : List Act)
    (h1 : w.trace = []) (h2 : pend acts = []) :
    traceOrdered (run f w acts).1.trace :=
  run_inv f w acts (Inv_init w acts h1 h2)

set_option maxHeartbeats 1600000 in
/-- Witness for C2: the re-entrant coercion scenario satisfies the
hypotheses and hence the ordering contract. -/
theorem claim2_broadcast_ordering_witness :
    reentrantWorld.trace = [] ∧ pend [Act.set 0 (.num (mkRat 7 2))] = [] ∧
    traceOrdered (run 12 reentrantWorld [Act.set 0 (.num (mkRat 7 2))]).1.trace := by
  refine ⟨rfl, rfl, ?_⟩
  exact claim2_broadcast_ordering 12 reentrantWorld [Act.set 0 (.num (mkRat 7 2))] rfl rfl


/-! ### Composition, length and freshness lemmas for C4 -/

/-- Running a concatenated stack is running the first part, then the second
on the remaining fuel. -/
theorem run_append : ∀ (f : Nat) (w : W) (as bs : List Act),
    run f w (as ++ bs) = run (run f w as).2 (run f w as).1 bs := by
  intro f
  induction f with
  | zero => intro w as bs; rfl
  | succ f ih =>
    intro w as bs
    match as with
    | [] => rfl
    | a :: as' =>
      rw [List.cons_append, run_cons, ← List.append_assoc, ih, run_cons]

/-- `updateCell` never changes the number of cells. -/
theorem updateCell_len (w : W) (c : Nat) (f : Cell → Cell) :
    (w.updateCell c f).cells.length = w.cells.length := by
  unfold W.updateCell; split
  · simp [List.length_set]
  · rfl

/-- A machine step never removes a cell. -/
theorem step_len (w : W) (a : Act) : w.cells.length ≤ (step w a).1.cells.length := by
  cases a with
  | set c v =>
    show w.cells.length ≤ (setStep w c v).1.cells.length
    unfold setStep
    repeat' split
    all_goals simp [updateCell_len]
  | bloop c g idx snap =>
    show w.cells.length ≤ (bloopStep w c g idx snap).1.cells.length
    unfold bloopStep
    repeat' split
    all_goals simp
  | runCb cb v =>
    show w.cells.length ≤ (cbRun w cb v).1.cells.length
    unfold cbRun userRun fwdRun
    repeat' split
    all_goals try simp
    all_goals split <;> simp
  | sub c imm cb reg =>
    show w.cells.length ≤ (subStep w c imm cb reg).1.cells.length
    unfold subStep subCore
    repeat' split
    all_goals simp [updateCell_len]
  | icall c oid cb =>
    show w.cells.length ≤ (icallStep w c oid cb).1.cells.length
    unfold icallStep
    repeat' split
    all_goals simp
  | append c oid cb =>
    show w.cells.length ≤ (appendStep w c oid cb).1.cells.length
    unfold appendStep
    simp [updateCell_len]
  | stopOb c oid =>
    show w.cells.length ≤ (stopStep w c oid).1.cells.length
    unfold stopStep
    repeat' split
    all_goals try simp [updateCell_len]
    all_goals split <;> simp [updateCell_len]
  | destroyRes d =>
    show w.cells.length ≤ (destroyStep w d).1.cells.length
    unfold destroyStep
    repeat' split
    all_goals simp

/-- A run never removes a cell. -/
theorem run_len : ∀ (f : Nat) (w : W) (acts : List Act),
    w.cells.length ≤ (run f w acts).1.cells.length := by
  intro f
  induction f with
  | zero => intro w acts; exact Nat.le_refl _
  | succ f ih =>
    intro w acts
    match acts with
    | [] => exact Nat.le_refl _
    | a :: rest =>
      rw [run_cons]
      exact Nat.le_trans (step_len w a) (ih (step w a).1 ((step w a).2 ++ rest))

/-- Appending trace events that hand nothing to `oid` leaves its call list
unchanged. -/
theorem callsTo_append_none (oid : Nat) (tr ext : List Ev)
    (h : ∀ e ∈ ext, callKey oid e = none) :
    callsTo oid (tr ++ ext) = callsTo oid tr := by
  unfold callsTo
  rw [List.filterMap_append, List.filterMap_eq_nil.mpr h, List.append_nil]

/-- An empty stack touches no Observation id. -/
theorem avoidOid_nil (oid : Nat) : avoidOid oid [] :=
  fun a ha => absurd ha (List.not_mem_nil a)

/-- Extending an avoiding stack by an avoiding action. -/
theorem avoidOid_cons {oid : Nat} {a : Act} {acts : List Act}
    (h1 : oid ∉ actOids a) (h2 : avoidOid oid acts) : avoidOid oid (a :: acts) := by
  intro b hb
  rcases List.mem_cons.mp hb with rfl | hb
  · exact h1
  · exact h2 b hb

/-- Concatenating avoiding stacks. -/
theorem avoidOid_append {oid : Nat} {as bs : List Act}
    (h1 : avoidOid oid as) (h2 : avoidOid oid bs) : avoidOid oid (as ++ bs) := by
  intro b hb
  rcases List.mem_append.mp hb with hb | hb
  · exact h1 b hb
  · exact h2 b hb

/-- Freshness transfers to a state with the same cells and a no-smaller
allocation counter. -/
theorem freshOid_congr {w w' : W} {oid : Nat} (h : freshOid w oid)
    (hc : w'.cells = w.cells) (hn : w.nextObsId ≤ w'.nextObsId) : freshOid w' oid :=
  ⟨Nat.lt_of_lt_of_le h.1 hn,
   fun cl hcl => h.2.1 cl (hc ▸ hcl),
   fun cl hcl => h.2.2 cl (hc ▸ hcl)⟩

/-- Freshness is preserved by a cell update that keeps the observer list
clear of `oid` and the internal subscriptions avoiding it. -/
theorem freshOid_updateCell {w : W} {oid : Nat} (c : Nat) (f : Cell → Cell)
    (h : freshOid w oid)
    (hobs : ∀ cl, (∀ o ∈ cl.obs, o.oid ≠ oid) → ∀ o ∈ (f cl).obs, o.oid ≠ oid)
    (hsub : ∀ cl, subAvoid oid cl.srcSub = true → subAvoid oid cl.innerSub = true →
      subAvoid oid (f cl).srcSub = true ∧ subAvoid oid (f cl).innerSub = true) :
    freshOid (w.updateCell c f) oid := by
  refine ⟨?_, ?_, ?_⟩
  · have hn : (w.updateCell c f).nextObsId = w.nextObsId := by
      unfold W.updateCell; split <;> rfl
    rw [hn]; exact h.1
  · intro cl hcl
    unfold W.updateCell at hcl
    split at hcl
    · next cl0 hg =>
      rcases List.mem_or_eq_of_mem_set hcl with hmem | rfl
      · exact h.2.1 cl hmem
      · exact hobs cl0 (h.2.1 cl0 (List.get?_mem hg))
    · exact h.2.1 cl hcl
  · intro cl hcl
    unfold W.updateCell at hcl
    split at hcl
    · next cl0 hg =>
      rcases List.mem_or_eq_of_mem_set hcl with hmem | rfl
      · exact h.2.2 cl hmem
      · exact hsub cl0 (h.2.2 cl0 (List.get?_mem hg)).1 (h.2.2 cl0 (List.get?_mem hg)).2
    · exact h.2.2 cl hcl

/-- Freshness is preserved by appending a brand-new cell with no observers
and no internal subscriptions touching `oid`. -/
theorem freshOid_appendCell {w : W} {oid : Nat} (cl : Cell)
    (h : freshOid w oid) (hobs : cl.obs = [])
    (hs : subAvoid oid cl.srcSub = true) (hi : subAvoid oid cl.innerSub = true) :
    freshOid { w with cells := w.cells ++ [cl] } oid := by
  refine ⟨h.1, ?_, ?_⟩
  · intro x hx
    rcases List.mem_append.mp hx with hx | hx
    · exact h.2.1 x hx
    · rcases List.mem_singleton.mp hx with rfl
      rw [hobs]
      intro o ho
      exact absurd ho (List.not_mem_nil o)
  · intro x hx
    rcases List.mem_append.mp hx with hx | hx
    · exact h.2.2 x hx
    · rcases List.mem_singleton.mp hx with rfl
      exact ⟨hs, hi⟩


/-- Freshness never depends on the trace. -/
theorem freshOid_trace {w : W} {oid : Nat} (h : freshOid w oid) (t : List Ev) :
    freshOid { w with trace := t } oid :=
  freshOid_congr h rfl (Nat.le_refl _)

/-- Resource-creation events hand nothing to any Observation. -/
theorem callsTo_creates (oid : Nat) (tr : List Ev) (c n : Nat) :
    callsTo oid (tr ++ (List.range n).map (fun i => Ev.create c i)) = callsTo oid tr := by
  refine callsTo_append_none oid _ _ ?_
  intro e he
  rcases List.mem_map.mp he with ⟨i, hi, rfl⟩
  rfl

/-- The Observation id `subscribe` allocates on an existing cell is the
current allocation counter. -/
theorem subCore_oid (w : W) (c : Nat) (reg : Reg) (cl : Cell) (hc : w.cell c = some cl) :
    (subCore w c reg).1 = w.nextObsId := by
  unfold subCore
  rw [hc]

/-- The bookkeeping part of `subscribe` on an existing cell preserves
freshness of any `oid` at most the allocation counter (strictly below it
unless the registration is `free`), its preamble actions touch no
Observation id directly, and its trace extension (resource creations)
hands nothing to any Observation. -/
theorem subCore_fresh (w : W) (c : Nat) (reg : Reg) (cl : Cell) (oid : Nat)
    (hc : w.cell c = some cl) (hle : oid ≤ w.nextObsId)
    (hok : oid < w.nextObsId ∨ reg = Reg.free)
    (hreg : unregistered w oid) (hst : unstored w oid) :
    freshOid (subCore w c reg).2.1 oid ∧
    avoidOid oid (subCore w c reg).2.2 ∧
    callsTo oid (subCore w c reg).2.1.trace = callsTo oid w.trace := by
  have hw1 : freshOid { w with nextObsId := w.nextObsId + 1 } oid :=
    ⟨Nat.lt_succ_of_le hle, hreg, hst⟩
  unfold subCore
  rw [hc]
  cases reg with
  | free =>
    rcases hk : cl.kind with _ | ⟨s, fn, flat⟩ | ⟨n, u⟩ <;>
      (try simp only [hk]) <;>
      cases hact : cl.active <;>
      (try simp only [hact, Bool.false_eq_true, if_false, if_true]) <;>
      cases hrc : cl.rc <;> (try simp only [hrc]) <;>
      refine ⟨?_, ?_, ?_⟩ <;>
      first
      | exact hw1
      | exact freshOid_updateCell c _ hw1 (fun x hx => hx) (fun x h1 h2 => ⟨h1, h2⟩)
      | exact freshOid_trace (freshOid_updateCell c
          (fun x => { x with active := true })
          (freshOid_appendCell { value := u, gen := 0, obs := [], kind := Kind.source }
            hw1 rfl rfl rfl)
          (fun x hx => hx) (fun x h1 h2 => ⟨h1, h2⟩)) _
      | simp [avoidOid, actOids]
      | rfl
      | (refine Eq.trans (callsTo_creates oid _ c _) ?_ ; simp only [updateCell_trace])
      | simp only [updateCell_trace]
  | inner d =>
    have hlt : oid < w.nextObsId := hok.resolve_right (fun hh => Reg.noConfusion hh)
    have hw2 : freshOid (({ w with nextObsId := w.nextObsId + 1 } : W).updateCell d
        (fun x => { x with innerSub := some (c, w.nextObsId) })) oid :=
      freshOid_updateCell d _ hw1 (fun x hx => hx)
        (fun x h1 h2 => ⟨h1, bne_iff_ne.mpr (Ne.symm (Nat.ne_of_lt hlt))⟩)
    rcases hk : cl.kind with _ | ⟨s, fn, flat⟩ | ⟨n, u⟩ <;>
      (try simp only [hk]) <;>
      cases hact : cl.active <;>
      (try simp only [hact, Bool.false_eq_true, if_false, if_true]) <;>
      cases hrc : cl.rc <;> (try simp only [hrc]) <;>
      refine ⟨?_, ?_, ?_⟩ <;>
      first
      | exact hw2
      | exact freshOid_updateCell c _ hw2 (fun x hx => hx) (fun x h1 h2 => ⟨h1, h2⟩)
      | exact freshOid_trace (freshOid_updateCell c
          (fun x => { x with active := true })
          (freshOid_appendCell { value := u, gen := 0, obs := [], kind := Kind.source }
            hw2 rfl rfl rfl)
          (fun x hx => hx) (fun x h1 h2 => ⟨h1, h2⟩)) _
      | simp [avoidOid, actOids]
      | rfl
      | (refine Eq.trans (callsTo_creates oid _ c _) ?_ ; simp only [updateCell_trace])
      | simp only [updateCell_trace]
  | srcOf d =>
    have hlt : oid < w.nextObsId := hok.resolve_right (fun hh => Reg.noConfusion hh)
    have hw2 : freshOid (({ w with nextObsId := w.nextObsId + 1 } : W).updateCell d
        (fun x => { x with srcSub := some (c, w.nextObsId) })) oid :=
      freshOid_updateCell d _ hw1 (fun x hx => hx)
        (fun x h1 h2 => ⟨bne_iff_ne.mpr (Ne.symm (Nat.ne_of_lt hlt)), h2⟩)
    rcases hk : cl.kind with _ | ⟨s, fn, flat⟩ | ⟨n, u⟩ <;>
      (try simp only [hk]) <;>
      cases hact : cl.active <;>
      (try simp only [hact, Bool.false_eq_true, if_false, if_true]) <;>
      cases hrc : cl.rc <;> (try simp only [hrc]) <;>
      refine ⟨?_, ?_, ?_⟩ <;>
      first
      | exact hw2
      | exact freshOid_updateCell c _ hw2 (fun x hx => hx) (fun x h1 h2 => ⟨h1, h2⟩)
      | exact freshOid_trace (freshOid_updateCell c
          (fun x => { x with active := true })
          (freshOid_appendCell { value := u, gen := 0, obs := [], kind := Kind.source }
            hw2 rfl rfl rfl)
          (fun x hx => hx) (fun x h1 h2 => ⟨h1, h2⟩)) _
      | simp [avoidOid, actOids]
      | rfl
      | (refine Eq.trans (callsTo_creates oid _ c _) ?_ ; simp only [updateCell_trace])
      | simp only [updateCell_trace]

/-- One machine step preserves freshness of an untouched Observation id:
the id stays fresh, the continuation actions still avoid it, and the step
hands it no value. -/
theorem step_fresh (w : W) (a : Act) (oid : Nat)
    (hF : freshOid w oid) (ha : oid ∉ actOids a) :
    freshOid (step w a).1 oid ∧ avoidOid oid (step w a).2 ∧
    callsTo oid (step w a).1.trace = callsTo oid w.trace := by
  cases a with
  | set c v =>
    show freshOid (setStep w c v).1 oid ∧ avoidOid oid (setStep w c v).2 ∧
      callsTo oid (setStep w c v).1.trace = callsTo oid w.trace
    unfold setStep
    split
    · exact ⟨hF, avoidOid_nil oid, rfl⟩
    · next cl hc =>
      split
      · exact ⟨hF, avoidOid_nil oid, rfl⟩
      · refine ⟨freshOid_updateCell c _ hF (fun x hx => hx) (fun x h1 h2 => ⟨h1, h2⟩),
          ?_, by simp only [updateCell_trace]⟩
        refine avoidOid_cons ?_ (avoidOid_nil oid)
        intro hmem
        obtain ⟨o, ho, hoe⟩ := List.mem_map.mp hmem
        exact hF.2.1 cl (List.get?_mem hc) o ho hoe
  | bloop c g idx snap =>
    show freshOid (bloopStep w c g idx snap).1 oid ∧ avoidOid oid (bloopStep w c g idx snap).2 ∧
      callsTo oid (bloopStep w c g idx snap).1.trace = callsTo oid w.trace
    unfold bloopStep
    split
    · exact ⟨hF, avoidOid_nil oid, rfl⟩
    · next o rest =>
      have ho : oid ≠ o.oid := fun h => ha (by rw [h]; exact List.mem_cons_self _ _)
      have hr : oid ∉ List.map (fun x => x.oid) rest :=
        fun h => ha (List.mem_cons_of_mem _ h)
      split
      · exact ⟨hF, avoidOid_nil oid, rfl⟩
      · next cl hc =>
        split
        · split
          · refine ⟨freshOid_congr hF rfl (Nat.le_refl _),
              avoidOid_cons (List.not_mem_nil oid) (avoidOid_cons hr (avoidOid_nil oid)), ?_⟩
            refine callsTo_append_none oid _ _ ?_
            intro e he
            rcases List.mem_singleton.mp he with rfl
            show (if o.oid = oid then some cl.value else none) = none
            exact if_neg (fun h => ho h.symm)
          · exact ⟨hF, avoidOid_cons hr (avoidOid_nil oid), rfl⟩
        · exact ⟨hF, avoidOid_nil oid, rfl⟩
  | runCb cb v =>
    show freshOid (cbRun w cb v).1 oid ∧ avoidOid oid (cbRun w cb v).2 ∧
      callsTo oid (cbRun w cb v).1.trace = callsTo oid w.trace
    cases cb with
    | user u =>
      show freshOid (userRun w u v).1 oid ∧ avoidOid oid (userRun w u v).2 ∧
        callsTo oid (userRun w u v).1.trace = callsTo oid w.trace
      unfold userRun
      split
      · exact ⟨freshOid_congr hF rfl (Nat.le_refl _), avoidOid_nil oid, rfl⟩
      · exact ⟨hF, avoidOid_nil oid, rfl⟩
      · exact ⟨hF, avoidOid_cons (List.not_mem_nil oid) (avoidOid_nil oid), rfl⟩
      · split
        · split
          · exact ⟨hF, avoidOid_cons (List.not_mem_nil oid) (avoidOid_nil oid), rfl⟩
          · exact ⟨hF, avoidOid_nil oid, rfl⟩
        · exact ⟨hF, avoidOid_nil oid, rfl⟩
    | fwd d =>
      show freshOid (fwdRun w d v).1 oid ∧ avoidOid oid (fwdRun w d v).2 ∧
        callsTo oid (fwdRun w d v).1.trace = callsTo oid w.trace
      unfold fwdRun
      have htr : callsTo oid (w.trace ++ [Ev.mapRun d]) = callsTo oid w.trace := by
        refine callsTo_append_none oid _ _ ?_
        intro e he
        rcases List.mem_singleton.mp he with rfl
        rfl
      cases hd : w.cell d with
      | none => exact ⟨hF, avoidOid_nil oid, rfl⟩
      | some cl =>
        rcases hk : cl.kind with _ | ⟨s, fn, flat⟩ | ⟨n, u⟩ <;> (try simp only [hk]) <;>
          [exact ⟨hF, avoidOid_nil oid, by trivial⟩;
           skip;
           exact ⟨hF, avoidOid_nil oid, by trivial⟩]
        cases flat <;> (try simp only [Bool.false_eq_true, if_false, if_true])
        · exact ⟨freshOid_congr hF rfl (Nat.le_refl _),
            avoidOid_cons (List.not_mem_nil oid) (avoidOid_nil oid), htr⟩
        · cases hmv : applyFn fn v <;> (try simp only [hmv])
          case ref i =>
            cases his : cl.innerSub with
            | none =>
              exact ⟨freshOid_congr hF rfl (Nat.le_refl _),
                avoidOid_cons (List.not_mem_nil oid) (avoidOid_nil oid), htr⟩
            | some p =>
              obtain ⟨ci, oi⟩ := p
              have hoi : oi ≠ oid := by
                have h2 := (hF.2.2 cl (List.get?_mem hd)).2
                rw [his] at h2
                simpa [subAvoid] using h2
              refine ⟨freshOid_congr hF rfl (Nat.le_refl _), ?_, htr⟩
              refine avoidOid_cons ?_ (avoidOid_cons (List.not_mem_nil oid) (avoidOid_nil oid))
              intro hmem
              exact hoi (List.mem_singleton.mp hmem).symm
          all_goals exact ⟨freshOid_congr hF rfl (Nat.le_refl _),
            avoidOid_cons (List.not_mem_nil oid) (avoidOid_nil oid), htr⟩
    | ifwd d =>
      exact ⟨hF, avoidOid_cons (List.not_mem_nil oid) (avoidOid_nil oid), rfl⟩
  | sub c imm cb reg =>
    show freshOid (subStep w c imm cb reg).1 oid ∧ avoidOid oid (subStep w c imm cb reg).2 ∧
      callsTo oid (subStep w c imm cb reg).1.trace = callsTo oid w.trace
    cases hc : w.cell c with
    | none =>
      have hs : subStep w c imm cb reg = (w, []) := by
        unfold subStep; rw [hc]
      rw [hs]
      exact ⟨hF, avoidOid_nil oid, rfl⟩
    | some cl =>
      have hs : subStep w c imm cb reg =
          ((subCore w c reg).2.1,
           ((subCore w c reg).2.2 ++ (if imm then [Act.icall c (subCore w c reg).1 cb] else []))
             ++ [Act.append c (subCore w c reg).1 cb]) := by
        unfold subStep; rw [hc]
      rw [hs]
      obtain ⟨h1, h2, h3⟩ := subCore_fresh w c reg cl oid hc (Nat.le_of_lt hF.1)
        (Or.inl hF.1) hF.2.1 hF.2.2
      have hneq : oid ≠ (subCore w c reg).1 := by
        rw [subCore_oid w c reg cl hc]
        exact Nat.ne_of_lt hF.1
      refine ⟨h1, ?_, h3⟩
      refine avoidOid_append (avoidOid_append h2 ?_) ?_
      · cases imm
        · exact avoidOid_nil oid
        · refine avoidOid_cons ?_ (avoidOid_nil oid)
          intro hmem
          exact hneq (List.mem_singleton.mp hmem)
      · refine avoidOid_cons ?_ (avoidOid_nil oid)
        intro hmem
        exact hneq (List.mem_singleton.mp hmem)
  | icall c oid2 cb =>
    have hne : oid ≠ oid2 := fun h => ha (List.mem_singleton.mpr h)
    show freshOid (icallStep w c oid2 cb).1 oid ∧ avoidOid oid (icallStep w c oid2 cb).2 ∧
      callsTo oid (icallStep w c oid2 cb).1.trace = callsTo oid w.trace
    unfold icallStep
    split
    · exact ⟨hF, avoidOid_nil oid, rfl⟩
    · next cl hc =>
      refine ⟨freshOid_congr hF rfl (Nat.le_refl _),
        avoidOid_cons (List.not_mem_nil oid) (avoidOid_nil oid), ?_⟩
      refine callsTo_append_none oid _ _ ?_
      intro e he
      rcases List.mem_singleton.mp he with rfl
      show (if oid2 = oid then some cl.value else none) = none
      exact if_neg (fun h => hne h.symm)
  | append c oid2 cb =>
    have hne : oid ≠ oid2 := fun h => ha (List.mem_singleton.mpr h)
    show freshOid (appendStep w c oid2 cb).1 oid ∧ avoidOid oid (appendStep w c oid2 cb).2 ∧
      callsTo oid (appendStep w c oid2 cb).1.trace = callsTo oid w.trace
    refine ⟨?_, avoidOid_nil oid, by simp only [appendStep, updateCell_trace]⟩
    refine freshOid_updateCell c _ hF ?_ (fun x h1 h2 => ⟨h1, h2⟩)
    intro x hx o ho
    rcases List.mem_append.mp ho with ho | ho
    · exact hx o ho
    · rcases List.mem_singleton.mp ho with rfl
      exact fun hh => hne hh.symm
  | stopOb c oid2 =>
    show freshOid (stopStep w c oid2).1 oid ∧ avoidOid oid (stopStep w c oid2).2 ∧
      callsTo oid (stopStep w c oid2).1.trace = callsTo oid w.trace
    unfold stopStep
    cases hc : w.cell c with
    | none => exact ⟨hF, avoidOid_nil oid, rfl⟩
    | some cl =>
      have hsub := hF.2.2 cl (List.get?_mem hc)
      have hw1 : freshOid (w.updateCell c
          (fun x => { x with obs := cl.obs.filter (fun o => o.oid != oid2) })) oid := by
        refine freshOid_updateCell c _ hF ?_ (fun x h1 h2 => ⟨h1, h2⟩)
        intro x hx o ho
        exact hF.2.1 cl (List.get?_mem hc) o (List.mem_of_mem_filter ho)
      have htr1 : callsTo oid (w.updateCell c
          (fun x => { x with obs := cl.obs.filter (fun o => o.oid != oid2) })).trace
          = callsTo oid w.trace := by rw [updateCell_trace]
      by_cases hany : (cl.obs.any fun o => o.oid == oid2) = true <;>
        (try simp only [hany, Bool.false_eq_true, if_false, if_true]) <;>
        [skip; exact ⟨hF, avoidOid_nil oid, by trivial⟩]
      by_cases hde : ((cl.obs.filter fun o => o.oid != oid2).isEmpty && cl.active) = true <;>
        (try simp only [hde, Bool.false_eq_true, if_false, if_true])
      case neg =>
        cases hrc : cl.rc <;> (try simp only [hrc])
        · exact ⟨hw1, avoidOid_nil oid, htr1⟩
        · exact ⟨hw1, avoidOid_cons (List.not_mem_nil oid) (avoidOid_nil oid), htr1⟩
      case pos =>
      rcases hk : cl.kind with _ | ⟨s, fn, flat⟩ | ⟨n, u⟩ <;> (try simp only [hk])
      · -- source
        cases hrc : cl.rc <;> (try simp only [hrc])
        · exact ⟨hw1, avoidOid_nil oid, htr1⟩
        · exact ⟨hw1, avoidOid_cons (List.not_mem_nil oid) (avoidOid_nil oid), htr1⟩
      · -- derived
        have hfr2 : freshOid ((w.updateCell c
            (fun x => { x with obs := cl.obs.filter (fun o => o.oid != oid2) })).updateCell c
            (fun x => { x with active := false, srcSub := none, innerSub := none })) oid :=
          freshOid_updateCell c _ hw1 (fun x hx => hx) (fun x h1 h2 => ⟨rfl, rfl⟩)
        have htr2 : callsTo oid ((w.updateCell c
            (fun x => { x with obs := cl.obs.filter (fun o => o.oid != oid2) })).updateCell c
            (fun x => { x with active := false, srcSub := none, innerSub := none })).trace
            = callsTo oid w.trace := by rw [updateCell_trace, updateCell_trace]
        cases hss : cl.srcSub with
        | none =>
          cases his : cl.innerSub with
          | none =>
            cases hrc : cl.rc <;> (try simp only [hrc])
            · exact ⟨hfr2, avoidOid_nil oid, htr2⟩
            · exact ⟨hfr2, avoidOid_cons (List.not_mem_nil oid) (avoidOid_nil oid), htr2⟩
          | some p =>
            obtain ⟨ci, oi⟩ := p
            have hoi : oid ∉ [oi] := by
              have h2 := hsub.2
              rw [his] at h2
              have hne : oi ≠ oid := by simpa [subAvoid] using h2
              intro hmem
              exact hne (List.mem_singleton.mp hmem).symm
            cases hrc : cl.rc <;> (try simp only [hrc])
            · exact ⟨hfr2, avoidOid_append (avoidOid_nil oid)
                (avoidOid_append (avoidOid_nil oid) (avoidOid_cons hoi (avoidOid_nil oid))), htr2⟩
            · exact ⟨hfr2, avoidOid_append
                (avoidOid_cons (List.not_mem_nil oid) (avoidOid_nil oid))
                (avoidOid_append (avoidOid_nil oid) (avoidOid_cons hoi (avoidOid_nil oid))), htr2⟩
        | some q =>
          obtain ⟨cs, os⟩ := q
          have hos : oid ∉ [os] := by
            have h2 := hsub.1
            rw [hss] at h2
            have hne : os ≠ oid := by simpa [subAvoid] using h2
            intro hmem
            exact hne (List.mem_singleton.mp hmem).symm
          cases his : cl.innerSub with
          | none =>
            cases hrc : cl.rc <;> (try simp only [hrc])
            · exact ⟨hfr2, avoidOid_append (avoidOid_nil oid)
                (avoidOid_append (avoidOid_cons hos (avoidOid_nil oid)) (avoidOid_nil oid)), htr2⟩
            · exact ⟨hfr2, avoidOid_append
                (avoidOid_cons (List.not_mem_nil oid) (avoidOid_nil oid))
                (avoidOid_append (avoidOid_cons hos (avoidOid_nil oid)) (avoidOid_nil oid)), htr2⟩
          | some p =>
            obtain ⟨ci, oi⟩ := p
            have hoi : oid ∉ [oi] := by
              have h2 := hsub.2
              rw [his] at h2
              have hne : oi ≠ oid := by simpa [subAvoid] using h2
              intro hmem
              exact hne (List.mem_singleton.mp hmem).symm
            cases hrc : cl.rc <;> (try simp only [hrc])
            · exact ⟨hfr2, avoidOid_append (avoidOid_nil oid)
                (avoidOid_append (avoidOid_cons hos (avoidOid_nil oid))
                  (avoidOid_cons hoi (avoidOid_nil oid))), htr2⟩
            · exact ⟨hfr2, avoidOid_append
                (avoidOid_cons (List.not_mem_nil oid) (avoidOid_nil oid))
                (avoidOid_append (avoidOid_cons hos (avoidOid_nil oid))
                  (avoidOid_cons hoi (avoidOid_nil oid))), htr2⟩
      · -- managed
        have hfr2 : freshOid ((w.updateCell c
            (fun x => { x with obs := cl.obs.filter (fun o => o.oid != oid2) })).updateCell c
            (fun x => { x with active := false, innerSub := none })) oid :=
          freshOid_updateCell c _ hw1 (fun x hx => hx) (fun x h1 h2 => ⟨h1, rfl⟩)
        have htr2 : callsTo oid ((w.updateCell c
            (fun x => { x with obs := cl.obs.filter (fun o => o.oid != oid2) })).updateCell c
            (fun x => { x with active := false, innerSub := none })).trace
            = callsTo oid w.trace := by rw [updateCell_trace, updateCell_trace]
        cases his : cl.innerSub with
        | none =>
          cases hrc : cl.rc <;> (try simp only [hrc])
          · exact ⟨hfr2, avoidOid_append (avoidOid_nil oid)
              (avoidOid_append (avoidOid_nil oid)
                (avoidOid_cons (List.not_mem_nil oid) (avoidOid_nil oid))), htr2⟩
          · exact ⟨hfr2, avoidOid_append
              (avoidOid_cons (List.not_mem_nil oid) (avoidOid_nil oid))
              (avoidOid_append (avoidOid_nil oid)
                (avoidOid_cons (List.not_mem_nil oid) (avoidOid_nil oid))), htr2⟩
        | some p =>
          obtain ⟨ci, oi⟩ := p
          have hoi : oid ∉ [oi] := by
            have h2 := hsub.2
            rw [his] at h2
            have hne : oi ≠ oid := by simpa [subAvoid] using h2
            intro hmem
            exact hne (List.mem_singleton.mp hmem).symm
          cases hrc : cl.rc <;> (try simp only [hrc])
          · exact ⟨hfr2, avoidOid_append (avoidOid_nil oid)
              (avoidOid_append (avoidOid_cons hoi (avoidOid_nil oid))
                (avoidOid_cons (List.not_mem_nil oid) (avoidOid_nil oid))), htr2⟩
          · exact ⟨hfr2, avoidOid_append
              (avoidOid_cons (List.not_mem_nil oid) (avoidOid_nil oid))
              (avoidOid_append (avoidOid_cons hoi (avoidOid_nil oid))
                (avoidOid_cons (List.not_mem_nil oid) (avoidOid_nil oid))), htr2⟩
  | destroyRes d =>
    show freshOid (destroyStep w d).1 oid ∧ avoidOid oid (destroyStep w d).2 ∧
      callsTo oid (destroyStep w d).1.trace = callsTo oid w.trace
    unfold destroyStep
    split
    · exact ⟨hF, avoidOid_nil oid, rfl⟩
    · split
      · refine ⟨freshOid_congr hF rfl (Nat.le_refl _), avoidOid_nil oid, ?_⟩
        refine callsTo_append_none oid _ _ ?_
        intro e he
        rcases List.mem_map.mp he with ⟨i, hi, rfl⟩
        rfl
      · exact ⟨hF, avoidOid_nil oid, rfl⟩

/-- Freshness persists along a whole run whose stack avoids the id, and
such a run hands the id nothing new. -/
theorem run_fresh : ∀ (f : Nat) (w : W) (acts : List Act) (oid : Nat),
    freshOid w oid → avoidOid oid acts →
    freshOid (run f w acts).1 oid ∧
    callsTo oid (run f w acts).1.trace = callsTo oid w.trace := by
  intro f
  induction f with
  | zero => intro w acts oid hF _; exact ⟨hF, rfl⟩
  | succ f ih =>
    intro w acts oid hF hA
    match acts with
    | [] => exact ⟨hF, rfl⟩
    | a :: rest =>
      rw [run_cons]
      have ha : oid ∉ actOids a := hA a (List.mem_cons_self a rest)
      have hrest : avoidOid oid rest := fun b hb => hA b (List.mem_cons_of_mem a hb)
      obtain ⟨hF1, hA1, hT1⟩ := step_fresh w a oid hF ha
      obtain ⟨hF2, hT2⟩ := ih (step w a).1 ((step w a).2 ++ rest) oid hF1
        (avoidOid_append hA1 hrest)
      exact ⟨hF2, hT2.trans hT1⟩

/-- C4 (subscribe immediate exactly-once): on an existing cell,
`subscribe(immediate = true, callback)` invokes the fresh Observation's
callback exactly once — synchronously, after the subscription bookkeeping
(id allocation, lazy activation, refCount broadcast) has settled, with the
cell's then-current value — and `subscribe(immediate = false, callback)`
never invokes it: over any completing run, the trace hands the fresh id
exactly the mid-subscription value of the cell in the immediate case and
nothing at all, at any fuel, in the non-immediate case. -/
theorem claim4_subscribe_immediate (f : Nat) (w : W) (c : Nat) (cb : Cb)
    (hcn : c < w.cells.length)
    (hreg : unregistered w w.nextObsId) (hst : unstored w w.nextObsId)
    (hct : callsTo w.nextObsId w.trace = [])
    (hdone : (run (f + 1) w [Act.sub c true cb Reg.free]).2 ≠ 0) :
    callsTo w.nextObsId (run (f + 1) w [Act.sub c true cb Reg.free]).1.trace
      = [valOf (subMid f w c) c] ∧
    ∀ g, callsTo w.nextObsId (run g w [Act.sub c false cb Reg.free]).1.trace = [] := by
  obtain ⟨cl, hc⟩ : ∃ cl, w.cell c = some cl := by
    cases hx : w.cell c with
    | none => exact absurd (List.get?_eq_none.mp hx) (Nat.not_le.mpr hcn)
    | some cl => exact ⟨cl, rfl⟩
  obtain ⟨hFm, hAm, hTm⟩ := subCore_fresh w c Reg.free cl w.nextObsId hc (Nat.le_refl _)
    (Or.inr rfl) hreg hst
  have happ : ∀ (f2 : Nat) (w2 : W) (o : Nat),
      (run f2 w2 [Act.append c o cb]).1.trace = w2.trace := by
    intro f2 w2 o
    cases f2 with
    | zero => rfl
    | succ f3 =>
      rw [run_cons]
      show (run f3 (appendStep w2 c o cb).1 []).1.trace = w2.trace
      rw [run_nil_state]
      simp only [appendStep, updateCell_trace]
  refine ⟨?_, ?_⟩
  · obtain ⟨hF2, hT2⟩ := run_fresh f (subCore w c Reg.free).2.1 (subCore w c Reg.free).2.2
      w.nextObsId hFm hAm
    have hT3 : callsTo w.nextObsId (subMid f w c).trace = [] := by
      show callsTo w.nextObsId
        (run f (subCore w c Reg.free).2.1 (subCore w c Reg.free).2.2).1.trace = []
      rw [hT2, hTm, hct]
    have hstep1 : (step w (Act.sub c true cb Reg.free)).1 = (subCore w c Reg.free).2.1 := by
      show (subStep w c true cb Reg.free).1 = _
      unfold subStep
      rw [hc]
    have hlen1 : w.cells.length ≤ (subCore w c Reg.free).2.1.cells.length := by
      have h0 := step_len w (Act.sub c true cb Reg.free)
      rw [hstep1] at h0
      exact h0
    have hlen : c < (subMid f w c).cells.length :=
      Nat.lt_of_lt_of_le hcn (Nat.le_trans hlen1
        (run_len f (subCore w c Reg.free).2.1 (subCore w c Reg.free).2.2))
    obtain ⟨cl2, hcl2⟩ : ∃ cl2, (subMid f w c).cell c = some cl2 := by
      cases hx : (subMid f w c).cell c with
      | none => exact absurd (List.get?_eq_none.mp hx) (Nat.not_le.mpr hlen)
      | some cl2 => exact ⟨cl2, rfl⟩
    have hval : valOf (subMid f w c) c = cl2.value := by
      unfold valOf
      rw [hcl2]
    have hrunA : run (f + 1) w [Act.sub c true cb Reg.free] =
        run (run f (subCore w c Reg.free).2.1 (subCore w c Reg.free).2.2).2
          (subMid f w c)
          [Act.icall c w.nextObsId cb, Act.append c w.nextObsId cb] := by
      rw [run_cons]
      have hs : step w (Act.sub c true cb Reg.free) =
          ((subCore w c Reg.free).2.1,
           ((subCore w c Reg.free).2.2 ++ [Act.icall c (subCore w c Reg.free).1 cb])
             ++ [Act.append c (subCore w c Reg.free).1 cb]) := by
        show subStep w c true cb Reg.free = _
        unfold subStep
        rw [hc]
        rfl
      rw [hs, subCore_oid w c Reg.free cl hc]
      simp only [List.append_nil, List.append_assoc]
      rw [run_append]
      rfl
    cases hf2 : (run f (subCore w c Reg.free).2.1 (subCore w c Reg.free).2.2).2 with
    | zero =>
      exfalso
      apply hdone
      rw [hrunA, hf2]
      rfl
    | succ f2 =>
      have hsI : step (subMid f w c) (Act.icall c w.nextObsId cb) =
          ({ subMid f w c with
              trace := (subMid f w c).trace ++ [Ev.icall w.nextObsId cl2.value] },
           [Act.runCb cb cl2.value]) := by
        show icallStep (subMid f w c) c w.nextObsId cb = _
        unfold icallStep
        rw [hcl2]
      have hrunB : run (f + 1) w [Act.sub c true cb Reg.free] =
          run f2 { subMid f w c with
              trace := (subMid f w c).trace ++ [Ev.icall w.nextObsId cl2.value] }
            ([Act.runCb cb cl2.value] ++ [Act.append c w.nextObsId cb]) := by
        rw [hrunA, hf2, run_cons, hsI]
      have hF3 : freshOid { subMid f w c with
          trace := (subMid f w c).trace ++ [Ev.icall w.nextObsId cl2.value] } w.nextObsId :=
        freshOid_trace hF2 _
      obtain ⟨hF4, hT4⟩ := run_fresh f2
        { subMid f w c with
            trace := (subMid f w c).trace ++ [Ev.icall w.nextObsId cl2.value] }
        [Act.runCb cb cl2.value] w.nextObsId hF3
        (avoidOid_cons (List.not_mem_nil w.nextObsId) (avoidOid_nil w.nextObsId))
      have hlast : callsTo w.nextObsId
          ((subMid f w c).trace ++ [Ev.icall w.nextObsId cl2.value]) = [cl2.value] := by
        unfold callsTo
        rw [List.filterMap_append]
        have h1 : List.filterMap (callKey w.nextObsId) (subMid f w c).trace = [] := hT3
        rw [h1]
        simp [callKey]
      rw [hval, hrunB, run_append, happ, hT4]
      exact hlast
  · intro g
    cases g with
    | zero => exact hct
    | succ g =>
      have hs : step w (Act.sub c false cb Reg.free) =
          ((subCore w c Reg.free).2.1,
           ((subCore w c Reg.free).2.2 ++ []) ++ [Act.append c (subCore w c Reg.free).1 cb]) := by
        show subStep w c false cb Reg.free = _
        unfold subStep
        rw [hc]
        rfl
      rw [run_cons, hs]
      simp only [List.append_nil]
      rw [run_append, happ]
      obtain ⟨hF2, hT2⟩ := run_fresh g (subCore w c Reg.free).2.1 (subCore w c Reg.free).2.2
        w.nextObsId hFm hAm
      rw [hT2, hTm, hct]

/-- Witness for C4: on the documented two-observer cell holding `2`, a
fresh immediate subscription is handed exactly `[2]` — the cell's value
once the subscription bookkeeping settled — and a non-immediate
subscription is handed nothing. -/
theorem claim4_subscribe_immediate_witness :
    0 < reentrantWorld.cells.length ∧
    unregistered reentrantWorld reentrantWorld.nextObsId ∧
    unstored reentrantWorld reentrantWorld.nextObsId ∧
    callsTo reentrantWorld.nextObsId reentrantWorld.trace = [] ∧
    (run 5 reentrantWorld [Act.sub 0 true (Cb.user UserFn.push) Reg.free]).2 ≠ 0 ∧
    callsTo reentrantWorld.nextObsId
      (run 5 reentrantWorld [Act.sub 0 true (Cb.user UserFn.push) Reg.free]).1.trace
      = [valOf (subMid 4 reentrantWorld 0) 0] ∧
    callsTo reentrantWorld.nextObsId
      (run 7 reentrantWorld [Act.sub 0 false (Cb.user UserFn.push) Reg.free]).1.trace = [] := by
  have hU : unregistered reentrantWorld reentrantWorld.nextObsId := by
    unfold unregistered
    decide
  have hS : unstored reentrantWorld reentrantWorld.nextObsId := by
    unfold unstored
    decide
  have h := claim4_subscribe_immediate 4 reentrantWorld 0 (Cb.user UserFn.push)
    (by decide) hU hS rfl (by decide)
  exact ⟨by decide, hU, hS, rfl, by decide, h.1, h.2 7⟩

end Janus
